import Mathlib

/-!
Shallow embedding of the CAF (Core Audio Format) chunk codec from `caf.go`
(package `caf`), together with proofs about its specification.

Modelling conventions:
* A byte stream (`io.Reader` / `io.Writer` contents) is a `List Nat`; each
  element models one byte (well-formed streams have all elements `< 256`).
* Go unsigned integers (`uint32`, `uint64`) are modelled as `Nat` holding the
  bit pattern; overflow is written explicitly with `% 2 ^ 64` where the Go
  code can overflow.
* Go signed integers (`int32`, `int64`) are modelled as `Int`; the byte-level
  two's-complement view is made explicit via `toInt64` / `int64Bytes`.
* Go `float64` / `float32` fields are modelled by their IEEE-754 bit patterns
  (`Nat`): the codec never interprets them, `binary.Read` / `binary.Write`
  only reinterpret the bits (`math.Float64frombits` is bijective on bits).
* Fallible operations return `Except Err`; `Err` mirrors the error values the
  Go code can produce, plus `Err.panicked` which models a Go runtime panic
  (e.g. `make([]byte, n)` with a negative length).
* `binary.Read` of an `n`-byte value uses `io.ReadFull`: reading from an
  exhausted stream yields `io.EOF`, a partial read yields
  `io.ErrUnexpectedEOF`.  This is modelled by `readN`.
-/

namespace Caf

/-- A byte stream: one `Nat` per byte. -/
abbrev Bytes := List Nat

/-- Errors a decode/encode call can end with.
`eof` models `io.EOF`; `unexpectedEOF` models `io.ErrUnexpectedEOF`;
`invalidHeader` models `errors.New("invalid caff header")`;
`panicked` models a Go runtime panic (crash), not an error return. -/
inductive Err where
  | eof
  | unexpectedEOF
  | invalidHeader
  | panicked
deriving DecidableEq, Repr

/-- `io.ReadFull` semantics of `binary.Read` for an `n`-byte value:
zero bytes available (and some needed) gives `io.EOF`; a partial read gives
`io.ErrUnexpectedEOF`; otherwise the first `n` bytes are consumed. -/
def readN (n : Nat) (s : Bytes) : Except Err (Bytes × Bytes) :=
  if n = 0 then .ok ([], s)
  else if s.isEmpty then .error .eof
  else if s.length < n then .error .unexpectedEOF
  else .ok (s.take n, s.drop n)

/-- Big-endian value of a byte list (as read by `encoding/binary`). -/
def beVal (bs : Bytes) : Nat := bs.foldl (fun a b => a * 256 + b) 0

/-- Big-endian encoding of `v` in exactly `w` bytes (as written by
`encoding/binary` for a `w`-byte unsigned value). -/
def beBytes : Nat → Nat → Bytes
  | 0, _ => []
  | w + 1, v => beBytes w (v / 256) ++ [v % 256]

/-- Reinterpret a 64-bit pattern as Go `int64` (two's complement). -/
def toInt64 (v : Nat) : Int :=
  if v < 2 ^ 63 then (v : Int) else (v : Int) - 2 ^ 64

/-- Reinterpret a 32-bit pattern as Go `int32` (two's complement). -/
def toInt32 (v : Nat) : Int :=
  if v < 2 ^ 31 then (v : Int) else (v : Int) - 2 ^ 32

/-- Bytes written by `binary.Write` for an `int64` (two's complement, BE). -/
def int64Bytes (i : Int) : Bytes := beBytes 8 (i % (2 ^ 64 : Int)).toNat

/-- Bytes written by `binary.Write` for an `int32` (two's complement, BE). -/
def int32Bytes (i : Int) : Bytes := beBytes 4 (i % (2 ^ 32 : Int)).toNat

/-! ### The variable-length integer codec (`encodeInt` / `decodeInt`) -/

/-- The byte-building loop of `encodeInt`: split `i` into 7-bit groups,
least-significant first (`byts` in the Go code).  The Go loop is a
do-while on `cur`; the first argument is fuel (`i + 1` suffices because
`cur` shrinks by a factor 128 each step). -/
def toGroupsF : Nat → Nat → List Nat
  | 0, i => [i % 128]
  | f + 1, i => i % 128 :: (if i / 128 = 0 then [] else toGroupsF f (i / 128))

/-- The write-out loop of `encodeInt`: the groups are emitted in reverse
(most-significant first) and every byte except the final one gets the
continuation bit `0x80` or-ed in. -/
def markCont : List Nat → List Nat
  | [] => []
  | [b] => [b]
  | b :: rest => (b ||| 128) :: markCont rest

/-- `encodeInt` from `caf.go`: base-128 encoding, most-significant group
first, continuation bit on every byte but the last.  (Writing to the
`io.Writer` cannot fail on an in-memory buffer, so the result is the byte
list itself.) -/
def encodeInt (i : Nat) : Bytes := markCont ((toGroupsF (i + 1) i).reverse)

/-- The loop of `decodeInt`: accumulate `res = res<<7 | (b & 127)` (on
`uint64`, hence the `% 2 ^ 64`; the or-ed operand is disjoint from the
shifted bits, so `|` is `+`), stop when the continuation bit is clear or
8 bytes have been read. -/
def decodeIntLoop (res bytesRead : Nat) : Bytes → Except Err (Nat × Bytes)
  | [] => .error .eof
  | b :: rest =>
    let res1 := (res * 128 + (b &&& 127)) % 2 ^ 64
    if b &&& 128 = 0 ∨ bytesRead + 1 ≥ 8 then .ok (res1, rest)
    else decodeIntLoop res1 (bytesRead + 1) rest

/-- `decodeInt` from `caf.go`. -/
def decodeInt (s : Bytes) : Except Err (Nat × Bytes) := decodeIntLoop 0 0 s


/-! ### Data model (`caf.go` types)

Go `string` values are raw byte strings here (`Bytes`); Go `float64` /
`float32` fields are held as their bit patterns (`Nat`), see the header
comment.  `FourByteString` is Go's `[4]byte`. -/

structure FourByteString where
  b0 : Nat
  b1 : Nat
  b2 : Nat
  b3 : Nat
deriving DecidableEq, Repr

/-- `stringToChunkType` from `caf.go`; the Go argument is a string, modelled
as its byte list.  (Go fills the 4-byte array index by index; inputs shorter
than 4 leave trailing zero bytes, which the model mirrors with `getD`.) -/
def stringToChunkType (str : Bytes) : FourByteString :=
  ⟨str.getD 0 0, str.getD 1 0, str.getD 2 0, str.getD 3 0⟩

def ChunkTypeAudioDescription : FourByteString :=
  stringToChunkType [100, 101, 115, 99]  -- "desc"
def ChunkTypeChannelLayout : FourByteString :=
  stringToChunkType [99, 104, 97, 110]  -- "chan"
def ChunkTypeInformation : FourByteString :=
  stringToChunkType [105, 110, 102, 111]  -- "info"
def ChunkTypeAudioData : FourByteString :=
  stringToChunkType [100, 97, 116, 97]  -- "data"
def ChunkTypePacketTable : FourByteString :=
  stringToChunkType [112, 97, 107, 116]  -- "pakt"
def ChunkTypeMidi : FourByteString :=
  stringToChunkType [109, 105, 100, 105]  -- "midi"

structure FileHeader where
  FileType : FourByteString
  FileVersion : Nat  -- int16 bit pattern (< 2 ^ 16)
  FileFlags : Nat    -- int16 bit pattern (< 2 ^ 16)
deriving DecidableEq, Repr

structure ChunkHeader where
  ChunkType : FourByteString
  ChunkSize : Int  -- int64
deriving DecidableEq, Repr

structure Data where
  EditCount : Nat  -- uint32
  Data : Bytes
deriving DecidableEq, Repr

structure AudioFormat where
  SampleRate : Nat  -- float64 bit pattern
  FormatID : FourByteString
  FormatFlags : Nat        -- uint32
  BytesPerPacket : Nat     -- uint32
  FramesPerPacket : Nat    -- uint32
  ChannelsPerPacket : Nat  -- uint32
  BitsPerChannel : Nat     -- uint32
deriving DecidableEq, Repr

structure PacketTableHeader where
  NumberPackets : Int      -- int64
  NumberValidFrames : Int  -- int64
  PrimingFramess : Int     -- int32 (sic: field name as in the source)
  RemainderFrames : Int    -- int32
deriving DecidableEq, Repr

structure PacketTable where
  Header : PacketTableHeader
  Entry : List Nat  -- []uint64
deriving DecidableEq, Repr

structure ChannelDescription where
  ChannelLabel : Nat  -- uint32
  ChannelFlags : Nat  -- uint32
  Coordinates : Nat × Nat × Nat  -- [3]float32 bit patterns
deriving DecidableEq, Repr

structure ChannelLayout where
  ChannelLayoutTag : Nat           -- uint32
  ChannelBitmap : Nat              -- uint32
  NumberChannelDescriptions : Nat  -- uint32
  Channels : List ChannelDescription
deriving DecidableEq, Repr

structure Information where
  Key : Bytes
  Value : Bytes
deriving DecidableEq, Repr

structure UnknownContents where
  Data : Bytes
deriving DecidableEq, Repr

abbrev Midi := Bytes

structure CAFStringsChunk where
  NumEntries : Nat  -- uint32
  Strings : List Information
deriving DecidableEq, Repr

/-- The payload held by `Chunk.Contents` (an `interface{}` in Go; decode
always stores the variant matching the chunk type tag). -/
inductive Contents where
  | audioFormat (c : AudioFormat)
  | channelLayout (c : ChannelLayout)
  | strings (c : CAFStringsChunk)
  | data (c : Data)
  | packetTable (c : PacketTable)
  | midi (c : Midi)
  | unknown (c : UnknownContents)
deriving DecidableEq, Repr

structure Chunk where
  Header : ChunkHeader
  Contents : Contents
deriving DecidableEq, Repr

structure File where
  FileHeader : FileHeader
  Chunks : List Chunk
deriving DecidableEq, Repr

/-! ### Payload decoders -/

/-- `readString` from `caf.go`: read byte by byte until a zero byte; every
byte read, including the zero terminator, is appended to the result. -/
def readString : Bytes → Except Err (Bytes × Bytes)
  | [] => .error .eof
  | b :: rest =>
    if b = 0 then .ok ([b], rest)
    else
      match readString rest with
      | .error e => .error e
      | .ok (bs, s1) => .ok (b :: bs, s1)

/-- `writeString` from `caf.go`: writes the string bytes verbatim (no
terminator is appended). -/
def writeString (s : Bytes) : Bytes := s

def Information.decode (s : Bytes) : Except Err (Information × Bytes) :=
  match readString s with
  | .error e => .error e
  | .ok (key, s1) =>
    match readString s1 with
    | .error e => .error e
    | .ok (value, s2) => .ok (⟨key, value⟩, s2)

/-- The `for i < NumEntries` loop of `CAFStringsChunk.decode`. -/
def decodeInformations : Nat → Bytes → Except Err (List Information × Bytes)
  | 0, s => .ok ([], s)
  | n + 1, s =>
    match Information.decode s with
    | .error e => .error e
    | .ok (info, s1) =>
      match decodeInformations n s1 with
      | .error e => .error e
      | .ok (l, s2) => .ok (info :: l, s2)

def CAFStringsChunk.decode (s : Bytes) :
    Except Err (CAFStringsChunk × Bytes) :=
  match readN 4 s with
  | .error e => .error e
  | .ok (cnt, s1) =>
    match decodeInformations (beVal cnt) s1 with
    | .error e => .error e
    | .ok (l, s2) => .ok (⟨beVal cnt, l⟩, s2)

/-- Field layout of the 32-byte `AudioFormat` record read by `binary.Read`. -/
def parseAudioFormat (bs : Bytes) : AudioFormat :=
  { SampleRate := beVal (bs.take 8)
    FormatID := ⟨(bs.drop 8).getD 0 0, (bs.drop 8).getD 1 0,
      (bs.drop 8).getD 2 0, (bs.drop 8).getD 3 0⟩
    FormatFlags := beVal ((bs.drop 12).take 4)
    BytesPerPacket := beVal ((bs.drop 16).take 4)
    FramesPerPacket := beVal ((bs.drop 20).take 4)
    ChannelsPerPacket := beVal ((bs.drop 24).take 4)
    BitsPerChannel := beVal ((bs.drop 28).take 4) }

def AudioFormat.decode (s : Bytes) : Except Err (AudioFormat × Bytes) :=
  match readN 32 s with
  | .error e => .error e
  | .ok (bs, s1) => .ok (parseAudioFormat bs, s1)

/-- Field layout of one 20-byte `ChannelDescription` read by `binary.Read`. -/
def parseChannelDescription (bs : Bytes) : ChannelDescription :=
  { ChannelLabel := beVal (bs.take 4)
    ChannelFlags := beVal ((bs.drop 4).take 4)
    Coordinates := (beVal ((bs.drop 8).take 4), beVal ((bs.drop 12).take 4),
      beVal ((bs.drop 16).take 4)) }

def readChannelDescription (s : Bytes) :
    Except Err (ChannelDescription × Bytes) :=
  match readN 20 s with
  | .error e => .error e
  | .ok (bs, s1) => .ok (parseChannelDescription bs, s1)

/-- The `for i < NumberChannelDescriptions` loop of `ChannelLayout.decode`. -/
def decodeChannelDescriptions :
    Nat → Bytes → Except Err (List ChannelDescription × Bytes)
  | 0, s => .ok ([], s)
  | n + 1, s =>
    match readChannelDescription s with
    | .error e => .error e
    | .ok (d, s1) =>
      match decodeChannelDescriptions n s1 with
      | .error e => .error e
      | .ok (l, s2) => .ok (d :: l, s2)

/-- `ChannelLayout.decode`: three separate 4-byte `binary.Read` calls, then
the description loop. -/
def ChannelLayout.decode (s : Bytes) : Except Err (ChannelLayout × Bytes) :=
  match readN 4 s with
  | .error e => .error e
  | .ok (tg, s1) =>
    match readN 4 s1 with
    | .error e => .error e
    | .ok (bm, s2) =>
      match readN 4 s2 with
      | .error e => .error e
      | .ok (cnt, s3) =>
        match decodeChannelDescriptions (beVal cnt) s3 with
        | .error e => .error e
        | .ok (l, s4) => .ok (⟨beVal tg, beVal bm, beVal cnt, l⟩, s4)

/-- Field layout of the 24-byte `PacketTableHeader` read by `binary.Read`. -/
def parsePacketTableHeader (bs : Bytes) : PacketTableHeader :=
  { NumberPackets := toInt64 (beVal (bs.take 8))
    NumberValidFrames := toInt64 (beVal ((bs.drop 8).take 8))
    PrimingFramess := toInt32 (beVal ((bs.drop 16).take 4))
    RemainderFrames := toInt32 (beVal ((bs.drop 20).take 4)) }

/-- The `for i < int(NumberPackets)` loop of `PacketTable.decode` (a
negative count gives zero iterations, hence `Int.toNat`). -/
def decodePacketEntries : Nat → Bytes → Except Err (List Nat × Bytes)
  | 0, s => .ok ([], s)
  | n + 1, s =>
    match decodeInt s with
    | .error e => .error e
    | .ok (v, s1) =>
      match decodePacketEntries n s1 with
      | .error e => .error e
      | .ok (l, s2) => .ok (v :: l, s2)

def PacketTable.decode (s : Bytes) : Except Err (PacketTable × Bytes) :=
  match readN 24 s with
  | .error e => .error e
  | .ok (bs, s1) =>
    let hdr := parsePacketTableHeader bs
    match decodePacketEntries hdr.NumberPackets.toNat s1 with
    | .error e => .error e
    | .ok (l, s2) => .ok (⟨hdr, l⟩, s2)

/-- `Data.decode` (4-byte edit count first).  Size `-1` reads all remaining
bytes (`ioutil.ReadAll`); otherwise `ReadAll(io.LimitReader(r, size-4))`
reads `min(size-4, remaining)` bytes and never fails (a negative limit
reads nothing). -/
def Data.decode (h : ChunkHeader) (s : Bytes) :
    Except Err (Caf.Data × Bytes) :=
  match readN 4 s with
  | .error e => .error e
  | .ok (ec, s1) =>
    if h.ChunkSize = -1 then .ok (⟨beVal ec, s1⟩, [])
    else
      let dataLength : Int := h.ChunkSize - 4  -- for edit count
      .ok (⟨beVal ec, s1.take dataLength.toNat⟩, s1.drop dataLength.toNat)

/-- Tag and size from the 12 header bytes read by `binary.Read`. -/
def parseChunkHeader (bs : Bytes) : ChunkHeader :=
  { ChunkType := ⟨bs.getD 0 0, bs.getD 1 0, bs.getD 2 0, bs.getD 3 0⟩
    ChunkSize := toInt64 (beVal (bs.drop 4)) }

/-- `Chunk.decode`: read the 12-byte header, then dispatch on the tag.
In the `midi` and unknown-tag branches Go runs `make([]byte, ChunkSize)`,
which panics for a negative size (modelled as `Err.panicked`; allocation
failure for huge positive sizes is not modelled).  The unknown branch also
logs a diagnostic line, which has no model effect. -/
def Chunk.decode (s : Bytes) : Except Err (Chunk × Bytes) :=
  match readN 12 s with
  | .error e => .error e
  | .ok (hd, s1) =>
    let h := parseChunkHeader hd
    if h.ChunkType = ChunkTypeAudioDescription then
      match AudioFormat.decode s1 with
      | .error e => .error e
      | .ok (cc, s2) => .ok (⟨h, .audioFormat cc⟩, s2)
    else if h.ChunkType = ChunkTypeChannelLayout then
      match ChannelLayout.decode s1 with
      | .error e => .error e
      | .ok (cc, s2) => .ok (⟨h, .channelLayout cc⟩, s2)
    else if h.ChunkType = ChunkTypeInformation then
      match CAFStringsChunk.decode s1 with
      | .error e => .error e
      | .ok (cc, s2) => .ok (⟨h, .strings cc⟩, s2)
    else if h.ChunkType = ChunkTypeAudioData then
      match Data.decode h s1 with
      | .error e => .error e
      | .ok (cc, s2) => .ok (⟨h, .data cc⟩, s2)
    else if h.ChunkType = ChunkTypePacketTable then
      match PacketTable.decode s1 with
      | .error e => .error e
      | .ok (cc, s2) => .ok (⟨h, .packetTable cc⟩, s2)
    else if h.ChunkType = ChunkTypeMidi then
      if h.ChunkSize < 0 then .error .panicked
      else
        match readN h.ChunkSize.toNat s1 with
        | .error e => .error e
        | .ok (ba, s2) => .ok (⟨h, .midi ba⟩, s2)
    else
      if h.ChunkSize < 0 then .error .panicked
      else
        match readN h.ChunkSize.toNat s1 with
        | .error e => .error e
        | .ok (ba, s2) => .ok (⟨h, .unknown ⟨ba⟩⟩, s2)

/-- `FileHeader.Decode`: one 8-byte `binary.Read`, then the magic check. -/
def FileHeader.Decode (s : Bytes) : Except Err (FileHeader × Bytes) :=
  match readN 8 s with
  | .error e => .error e
  | .ok (bs, s1) =>
    let h : FileHeader :=
      { FileType := ⟨bs.getD 0 0, bs.getD 1 0, bs.getD 2 0, bs.getD 3 0⟩
        FileVersion := beVal ((bs.drop 4).take 2)
        FileFlags := beVal (bs.drop 6) }
    if h.FileType ≠ stringToChunkType [99, 97, 102, 102] then  -- "caff"
      .error .invalidHeader
    else .ok (h, s1)

/-- The chunk loop of `File.Decode`, `break`-ing (successfully) when
`Chunk.decode` returns `io.EOF` and aborting on any other error.  The first
argument is fuel: every successful `Chunk.decode` consumes at least the 12
header bytes, so `s.length + 1` fuel (as passed by `File.Decode`) can never
run out; the fuel-0 branch is unreachable from `File.Decode`. -/
def decodeChunksF : Nat → Bytes → Except Err (List Chunk)
  | 0, _ => .error .eof
  | fuel + 1, s =>
    match Chunk.decode s with
    | .error .eof => .ok []
    | .error e => .error e
    | .ok (c, s1) =>
      match decodeChunksF fuel s1 with
      | .error e => .error e
      | .ok cs => .ok (c :: cs)

def File.Decode (s : Bytes) : Except Err File :=
  match FileHeader.Decode s with
  | .error e => .error e
  | .ok (fh, s1) =>
    match decodeChunksF (s1.length + 1) s1 with
    | .error e => .error e
    | .ok cs => .ok ⟨fh, cs⟩

/-! ### Encoders

Writes to an in-memory buffer cannot fail, so pure encoders return `Bytes`.
Encoders that index a slice with a loop bound taken from a count field
(`Entry[i]`, `Channels[i]`, `Strings[i]`) panic in Go when the slice is
shorter than the count; those return `Except Err Bytes` with
`Err.panicked` for that case, as does `Chunk.Encode` whose type assertions
on `Contents` panic when the variant does not match the tag. -/

def tagBytes (t : FourByteString) : Bytes := [t.b0, t.b1, t.b2, t.b3]

def FileHeader.Encode (h : FileHeader) : Bytes :=
  tagBytes h.FileType ++ beBytes 2 h.FileVersion ++ beBytes 2 h.FileFlags

def AudioFormat.encode (c : AudioFormat) : Bytes :=
  beBytes 8 c.SampleRate ++ tagBytes c.FormatID ++ beBytes 4 c.FormatFlags ++
    beBytes 4 c.BytesPerPacket ++ beBytes 4 c.FramesPerPacket ++
    beBytes 4 c.ChannelsPerPacket ++ beBytes 4 c.BitsPerChannel

def ChannelDescription.encode (c : ChannelDescription) : Bytes :=
  beBytes 4 c.ChannelLabel ++ beBytes 4 c.ChannelFlags ++
    beBytes 4 c.Coordinates.1 ++ beBytes 4 c.Coordinates.2.1 ++
    beBytes 4 c.Coordinates.2.2

def ChannelLayout.encode (c : ChannelLayout) : Except Err Bytes :=
  if c.NumberChannelDescriptions ≤ c.Channels.length then
    .ok (beBytes 4 c.ChannelLayoutTag ++ beBytes 4 c.ChannelBitmap ++
      beBytes 4 c.NumberChannelDescriptions ++
      ((c.Channels.take c.NumberChannelDescriptions).map
        ChannelDescription.encode).flatten)
  else .error .panicked  -- Channels[i] index out of range

def Information.encode (c : Information) : Bytes :=
  writeString c.Key ++ writeString c.Value

def CAFStringsChunk.encode (c : CAFStringsChunk) : Except Err Bytes :=
  if c.NumEntries ≤ c.Strings.length then
    .ok (beBytes 4 c.NumEntries ++
      ((c.Strings.take c.NumEntries).map Information.encode).flatten)
  else .error .panicked  -- Strings[i] index out of range

def PacketTable.encode (c : PacketTable) : Except Err Bytes :=
  if c.Header.NumberPackets.toNat ≤ c.Entry.length then
    .ok (int64Bytes c.Header.NumberPackets ++
      int64Bytes c.Header.NumberValidFrames ++
      int32Bytes c.Header.PrimingFramess ++
      int32Bytes c.Header.RemainderFrames ++
      ((c.Entry.take c.Header.NumberPackets.toNat).map encodeInt).flatten)
  else .error .panicked  -- Entry[i] index out of range

def Data.encode (c : Caf.Data) : Bytes := beBytes 4 c.EditCount ++ c.Data

def Chunk.Encode (c : Chunk) : Except Err Bytes :=
  let header := tagBytes c.Header.ChunkType ++ int64Bytes c.Header.ChunkSize
  if c.Header.ChunkType = ChunkTypeAudioDescription then
    match c.Contents with
    | .audioFormat cc => .ok (header ++ cc.encode)
    | _ => .error .panicked  -- failed type assertion
  else if c.Header.ChunkType = ChunkTypeChannelLayout then
    match c.Contents with
    | .channelLayout cc =>
      match cc.encode with
      | .error e => .error e
      | .ok b => .ok (header ++ b)
    | _ => .error .panicked
  else if c.Header.ChunkType = ChunkTypeInformation then
    match c.Contents with
    | .strings cc =>
      match cc.encode with
      | .error e => .error e
      | .ok b => .ok (header ++ b)
    | _ => .error .panicked
  else if c.Header.ChunkType = ChunkTypeAudioData then
    match c.Contents with
    | .data cc => .ok (header ++ cc.encode)
    | _ => .error .panicked
  else if c.Header.ChunkType = ChunkTypePacketTable then
    match c.Contents with
    | .packetTable cc =>
      match cc.encode with
      | .error e => .error e
      | .ok b => .ok (header ++ b)
    | _ => .error .panicked
  else if c.Header.ChunkType = ChunkTypeMidi then
    match c.Contents with
    | .midi m => .ok (header ++ m)
    | _ => .error .panicked
  else
    match c.Contents with
    | .unknown u => .ok (header ++ u.Data)
    | _ => .error .panicked

/-- The chunk loop of `File.Encode`. -/
def encodeChunks : List Chunk → Except Err Bytes
  | [] => .ok []
  | c :: rest =>
    match c.Encode with
    | .error e => .error e
    | .ok b =>
      match encodeChunks rest with
      | .error e => .error e
      | .ok bs => .ok (b ++ bs)

def File.Encode (f : File) : Except Err Bytes :=
  match encodeChunks f.Chunks with
  | .error e => .error e
  | .ok bs => .ok (f.FileHeader.Encode ++ bs)

/-! ### Well-formedness

`fileWF` captures the in-memory `File` values that the encoder serialises
to real byte streams and that survive a decode/encode round trip: numeric
fields fit their Go types, stored byte lists are real bytes, count fields
agree with the stored slices, tags match payload variants, info strings are
exactly zero-terminated (one terminator, at the end, as `readString`
produces), packet sizes fit the varint decoder's 56-bit range, and only a
final audio-data chunk may use the `-1` sentinel size. -/

def tagOK (t : FourByteString) : Bool :=
  decide (t.b0 < 256) && decide (t.b1 < 256) &&
    decide (t.b2 < 256) && decide (t.b3 < 256)

def bytesOK (l : Bytes) : Bool := l.all (fun b => decide (b < 256))

def u32OK (v : Nat) : Bool := decide (v < 2 ^ 32)

def int64OK (i : Int) : Bool := decide (-(2 ^ 63) ≤ i) && decide (i < 2 ^ 63)

def int32OK (i : Int) : Bool := decide (-(2 ^ 31) ≤ i) && decide (i < 2 ^ 31)

/-- A stored info string as produced by `readString`: nonempty, ends with
its zero terminator, and has no interior zero byte. -/
def strOK (s : Bytes) : Bool :=
  decide (s ≠ []) && decide (s.getLast? = some 0) &&
    s.dropLast.all (fun b => decide (b ≠ 0) && decide (b < 256))

def afWF (a : AudioFormat) : Bool :=
  decide (a.SampleRate < 2 ^ 64) && tagOK a.FormatID && u32OK a.FormatFlags &&
    u32OK a.BytesPerPacket && u32OK a.FramesPerPacket &&
    u32OK a.ChannelsPerPacket && u32OK a.BitsPerChannel

def cdWF (d : ChannelDescription) : Bool :=
  u32OK d.ChannelLabel && u32OK d.ChannelFlags && u32OK d.Coordinates.1 &&
    u32OK d.Coordinates.2.1 && u32OK d.Coordinates.2.2

def clWF (c : ChannelLayout) : Bool :=
  u32OK c.ChannelLayoutTag && u32OK c.ChannelBitmap &&
    u32OK c.NumberChannelDescriptions &&
    decide (c.NumberChannelDescriptions = c.Channels.length) &&
    c.Channels.all cdWF

def infoWF (i : Information) : Bool := strOK i.Key && strOK i.Value

def stWF (c : CAFStringsChunk) : Bool :=
  u32OK c.NumEntries && decide (c.NumEntries = c.Strings.length) &&
    c.Strings.all infoWF

def ptWF (c : PacketTable) : Bool :=
  decide (c.Header.NumberPackets = (c.Entry.length : Int)) &&
    int64OK c.Header.NumberPackets && int64OK c.Header.NumberValidFrames &&
    int32OK c.Header.PrimingFramess && int32OK c.Header.RemainderFrames &&
    c.Entry.all (fun v => decide (v < 2 ^ 56))

def chunkWF (allowSentinel : Bool) (c : Chunk) : Bool :=
  tagOK c.Header.ChunkType && int64OK c.Header.ChunkSize &&
  match c.Contents with
  | .audioFormat a =>
    decide (c.Header.ChunkType = ChunkTypeAudioDescription) && afWF a
  | .channelLayout cl =>
    decide (c.Header.ChunkType = ChunkTypeChannelLayout) && clWF cl
  | .strings st =>
    decide (c.Header.ChunkType = ChunkTypeInformation) && stWF st
  | .data d =>
    decide (c.Header.ChunkType = ChunkTypeAudioData) &&
      decide (d.EditCount < 2 ^ 32) && bytesOK d.Data &&
      (decide (c.Header.ChunkSize = 4 + (d.Data.length : Int)) ||
        (allowSentinel && decide (c.Header.ChunkSize = -1)))
  | .packetTable pt =>
    decide (c.Header.ChunkType = ChunkTypePacketTable) && ptWF pt
  | .midi m =>
    decide (c.Header.ChunkType = ChunkTypeMidi) &&
      decide (c.Header.ChunkSize = (m.length : Int)) && bytesOK m
  | .unknown u =>
    decide (c.Header.ChunkType ≠ ChunkTypeAudioDescription) &&
      decide (c.Header.ChunkType ≠ ChunkTypeChannelLayout) &&
      decide (c.Header.ChunkType ≠ ChunkTypeInformation) &&
      decide (c.Header.ChunkType ≠ ChunkTypeAudioData) &&
      decide (c.Header.ChunkType ≠ ChunkTypePacketTable) &&
      decide (c.Header.ChunkType ≠ ChunkTypeMidi) &&
      decide (c.Header.ChunkSize = (u.Data.length : Int)) && bytesOK u.Data

/-- An audio-data chunk using the `-1` sentinel size. -/
def isSentinelData (c : Chunk) : Bool :=
  match c.Contents with
  | .data _ => decide (c.Header.ChunkSize = -1)
  | _ => false

/-- Only the last chunk may be an audio-data chunk with the `-1` sentinel
size (its payload runs to end of stream). -/
def chunksWFb : List Chunk → Bool
  | [] => true
  | [c] => chunkWF true c
  | c :: rest => chunkWF false c && chunksWFb rest

def headerWF (h : FileHeader) : Bool :=
  tagOK h.FileType && decide (h.FileVersion < 2 ^ 16) &&
    decide (h.FileFlags < 2 ^ 16)

def fileWF (f : File) : Bool :=
  headerWF f.FileHeader &&
    decide (f.FileHeader.FileType = stringToChunkType [99, 97, 102, 102]) &&
    chunksWFb f.Chunks

/-- A valid CAF byte sequence: one produced by encoding some well-formed
in-memory `File`. -/
def ValidCAF (B : Bytes) : Prop :=
  ∃ f : File, fileWF f = true ∧ File.Encode f = Except.ok B

/-- Test vector: a "caff" file header followed by a midi chunk whose
declared size is -1 (the int64 pattern 0xFFFFFFFFFFFFFFFF). -/
def midiNegStream : Bytes :=
  [99, 97, 102, 102, 0, 0, 0, 0, 109, 105, 100, 105,
   255, 255, 255, 255, 255, 255, 255, 255]

theorem beBytes_length (w v : Nat) : (beBytes w v).length = w := by
  induction w generalizing v with
  | zero => rfl
  | succ w ih => simp [beBytes, ih]

theorem beVal_append_singleton (l : Bytes) (b : Nat) :
    beVal (l ++ [b]) = beVal l * 256 + b := by
  simp [beVal, List.foldl_append]

theorem beVal_beBytes (w v : Nat) : beVal (beBytes w v) = v % 256 ^ w := by
  induction w generalizing v with
  | zero => simp [beBytes, beVal, Nat.mod_one]
  | succ w ih =>
    rw [beBytes, beVal_append_singleton, ih]
    have hsplit : v % 256 ^ (w + 1) = v % 256 + 256 * (v / 256 % 256 ^ w) := by
      rw [pow_succ, mul_comm (256 ^ w) 256, Nat.mod_mul]
    omega

theorem beVal_beBytes_of_lt {w v : Nat} (h : v < 256 ^ w) :
    beVal (beBytes w v) = v := by
  rw [beVal_beBytes, Nat.mod_eq_of_lt h]

theorem beBytes_beVal : ∀ (l : Bytes), (∀ b ∈ l, b < 256) →
    beBytes l.length (beVal l) = l := by
  intro l
  induction l using List.reverseRecOn with
  | nil => intro _; rfl
  | append_singleton m b ih =>
    intro hb
    have hblt : b < 256 := hb b (by simp)
    have hm : ∀ x ∈ m, x < 256 := fun x hx => hb x (by simp [hx])
    rw [beVal_append_singleton]
    have hlen : (m ++ [b]).length = m.length + 1 := by simp
    rw [hlen, beBytes]
    have hdiv : (beVal m * 256 + b) / 256 = beVal m := by omega
    have hmod : (beVal m * 256 + b) % 256 = b := by omega
    rw [hdiv, hmod, ih hm]

theorem beVal_lt (l : Bytes) (h : ∀ b ∈ l, b < 256) :
    beVal l < 256 ^ l.length := by
  induction l using List.reverseRecOn with
  | nil => simp [beVal]
  | append_singleton m b ih =>
    have hblt : b < 256 := h b (by simp)
    have hm : ∀ x ∈ m, x < 256 := fun x hx => h x (by simp [hx])
    have := ih hm
    rw [beVal_append_singleton]
    simp only [List.length_append, List.length_singleton]
    calc beVal m * 256 + b < (beVal m + 1) * 256 := by omega
      _ ≤ 256 ^ m.length * 256 := by
          have : beVal m + 1 ≤ 256 ^ m.length := this
          exact Nat.mul_le_mul_right 256 this
      _ = 256 ^ (m.length + 1) := by rw [pow_succ]

theorem readN_append {n : Nat} {a : Bytes} (rest : Bytes) (h : a.length = n) :
    readN n (a ++ rest) = .ok (a, rest) := by
  unfold readN
  rcases Nat.eq_zero_or_pos n with hz | hpos
  · subst hz
    have : a = [] := List.length_eq_zero.mp h
    simp [this]
  · have hne : ¬ n = 0 := by omega
    have hane : a ≠ [] := by
      intro hc; subst hc; simp at h; omega
    have hemp : ¬ ((a ++ rest).isEmpty = true) := by
      simp [hane]
    have hlen : ¬ (a ++ rest).length < n := by
      simp only [List.length_append, h]; omega
    rw [if_neg hne, if_neg hemp, if_neg hlen, List.take_left' h,
      List.drop_left' h]

theorem readN_ok_drop {n : Nat} {s a s1 : Bytes}
    (h : readN n s = .ok (a, s1)) :
    a = s.take n ∧ s1 = s.drop n ∧ n ≤ s.length := by
  unfold readN at h
  split at h
  · next h0 =>
    subst h0
    simp only [Except.ok.injEq, Prod.mk.injEq] at h
    simp [← h.1, ← h.2]
  · next h0 =>
    split at h
    · exact absurd h (by simp)
    · split at h
      · exact absurd h (by simp)
      · next hl =>
        simp only [Except.ok.injEq, Prod.mk.injEq] at h
        exact ⟨h.1.symm, h.2.symm, by omega⟩

theorem readN_not_panicked {n : Nat} {s : Bytes} :
    readN n s ≠ .error .panicked := by
  unfold readN
  by_cases h0 : n = 0 <;> by_cases he : s.isEmpty <;>
    by_cases hl : s.length < n <;> simp [h0, he, hl]

/-! ### Bridging facts about the bitwise operations on bytes -/

theorem and127_le (b : Nat) : b &&& 127 ≤ 127 := Nat.and_le_right

theorem lor128_eq : ∀ b < 128, b ||| 128 = b + 128 := by decide

theorem and127_of_lt : ∀ b < 128, b &&& 127 = b := by decide

theorem and128_of_lt : ∀ b < 128, b &&& 128 = 0 := by decide

theorem and127_lor128 : ∀ b < 128, (b ||| 128) &&& 127 = b := by decide

theorem and128_lor128 : ∀ b < 128, (b ||| 128) &&& 128 ≠ 0 := by decide

/-! ### Properties of the group-building loop of `encodeInt` -/

theorem toGroupsF_lt (f : Nat) : ∀ i, ∀ b ∈ toGroupsF f i, b < 128 := by
  induction f with
  | zero =>
    intro i b hb
    simp only [toGroupsF, List.mem_singleton] at hb
    subst hb; exact Nat.mod_lt _ (by norm_num)
  | succ f ih =>
    intro i b hb
    simp only [toGroupsF, List.mem_cons] at hb
    rcases hb with hb | hb
    · subst hb; exact Nat.mod_lt _ (by norm_num)
    · split at hb
      · simp at hb
      · exact ih _ b hb

theorem toGroupsF_ne_nil (f i : Nat) : toGroupsF f i ≠ [] := by
  cases f <;> simp [toGroupsF]

/-- Reading a most-significant-first base-128 group list back as a value. -/
theorem foldl128_shift (l : List Nat) :
    ∀ res : Nat, l.foldl (fun a b => a * 128 + b) res =
      res * 128 ^ l.length + l.foldl (fun a b => a * 128 + b) 0 := by
  induction l with
  | nil => intro res; simp
  | cons b t ih =>
    intro res
    simp only [List.foldl_cons, List.length_cons, Nat.zero_mul, Nat.zero_add]
    rw [ih (res * 128 + b), ih b]
    ring

theorem toGroupsF_val (f : Nat) : ∀ i, i ≤ f + 1 →
    (toGroupsF f i).reverse.foldl (fun a b => a * 128 + b) 0 = i := by
  induction f with
  | zero =>
    intro i hi
    have : i % 128 = i := Nat.mod_eq_of_lt (by omega)
    simp [toGroupsF, this]
  | succ f ih =>
    intro i hi
    by_cases hz : i / 128 = 0
    · have : i < 128 := by omega
      simp [toGroupsF, hz, Nat.mod_eq_of_lt this]
    · have hge : 128 ≤ i := by
        by_contra hc
        exact hz (Nat.div_eq_of_lt (by omega))
      have hrec : i / 128 ≤ f + 1 := by
        have := Nat.div_lt_self (by omega : 0 < i) (by norm_num : 1 < 128)
        omega
      simp only [toGroupsF, hz, if_false, List.reverse_cons]
      rw [List.foldl_append]
      simp only [List.foldl_cons, List.foldl_nil]
      rw [ih _ hrec]
      omega

theorem toGroupsF_length (n : Nat) :
    ∀ f i, i ≤ f + 1 → i < 128 ^ n → 1 ≤ n → (toGroupsF f i).length ≤ n := by
  induction n with
  | zero => intro _ _ _ _ h; omega
  | succ n ih =>
    intro f i hf hi _
    cases f with
    | zero => simp [toGroupsF]
    | succ f =>
      by_cases hz : i / 128 = 0
      · simp [toGroupsF, hz]
      · have hge : 128 ≤ i := by
          by_contra hc
          exact hz (Nat.div_eq_of_lt (by omega))
        have hn1 : 1 ≤ n := by
          by_contra hc
          have : n = 0 := by omega
          subst this
          simp at hi
          omega
        have hrec : i / 128 ≤ f + 1 := by
          have := Nat.div_lt_self (by omega : 0 < i) (by norm_num : 1 < 128)
          omega
        have hlt : i / 128 < 128 ^ n := by
          rw [Nat.div_lt_iff_lt_mul (by norm_num : 0 < 128)]
          calc i < 128 ^ (n + 1) := hi
            _ = 128 ^ n * 128 := by rw [pow_succ]
        simp only [toGroupsF, hz, if_false, List.length_cons]
        have := ih f (i / 128) hrec hlt hn1
        omega

/-- Decoding the marked (continuation-bit-flagged) form of a group list
accumulates exactly the base-128 value of the groups. -/
theorem decodeIntLoop_markCont :
    ∀ (gs : List Nat) (res k : Nat) (rest : Bytes),
      gs ≠ [] → (∀ b ∈ gs, b < 128) → k + gs.length ≤ 8 →
      res < 2 ^ (7 * k) →
      decodeIntLoop res k (markCont gs ++ rest) =
        .ok (gs.foldl (fun a b => a * 128 + b) res, rest) := by
  intro gs
  induction gs with
  | nil => intro _ _ _ h _ _ _; exact absurd rfl h
  | cons b t ih =>
    intro res k rest _ hlt hlen hres
    have hb : b < 128 := hlt b (by simp)
    cases t with
    | nil =>
      simp only [markCont, List.cons_append, List.nil_append]
      unfold decodeIntLoop
      have h127 : b &&& 127 = b := and127_of_lt b hb
      have h128 : b &&& 128 = 0 := and128_of_lt b hb
      have hsmall : res * 128 + b < 2 ^ 64 := by
        have h1 : res * 128 < 2 ^ (7 * k) * 128 := by
          have : (0 : Nat) < 128 := by norm_num
          exact (Nat.mul_lt_mul_right this).mpr hres
        have h2 : 2 ^ (7 * k) * 128 = 2 ^ (7 * k + 7) := by
          rw [pow_add]; norm_num
        have h3 : (7 : Nat) * k + 7 ≤ 56 := by
          simp only [List.length_cons, List.length_nil] at hlen
          omega
        have h4 : (2 : Nat) ^ (7 * k + 7) ≤ 2 ^ 56 :=
          Nat.pow_le_pow_right (by norm_num) h3
        have h5 : (2 : Nat) ^ 56 < 2 ^ 64 := by norm_num
        omega
      simp only [h127, h128, Nat.mod_eq_of_lt hsmall]
      simp
    | cons g u =>
      simp only [markCont, List.cons_append]
      unfold decodeIntLoop
      have h127 : (b ||| 128) &&& 127 = b := and127_lor128 b hb
      have h128 : (b ||| 128) &&& 128 ≠ 0 := and128_lor128 b hb
      have hk : ¬ (k + 1 ≥ 8) := by
        simp only [List.length_cons] at hlen
        omega
      have hcond : ¬ ((b ||| 128) &&& 128 = 0 ∨ k + 1 ≥ 8) := by
        intro hc; rcases hc with hc | hc
        · exact h128 hc
        · exact hk hc
      have hsmall : res * 128 + b < 2 ^ (7 * (k + 1)) := by
        have h1 : res * 128 < 2 ^ (7 * k) * 128 := by
          have : (0 : Nat) < 128 := by norm_num
          exact (Nat.mul_lt_mul_right this).mpr hres
        have h2 : 2 ^ (7 * k) * 128 = 2 ^ (7 * (k + 1)) := by
          rw [Nat.mul_add, pow_add]; norm_num
        omega
      have hsmall64 : res * 128 + b < 2 ^ 64 := by
        have h3 : 7 * (k + 1) ≤ 56 := by
          simp only [List.length_cons] at hlen
          omega
        have h4 : (2 : Nat) ^ (7 * (k + 1)) ≤ 2 ^ 56 :=
          Nat.pow_le_pow_right (by norm_num) h3
        have h5 : (2 : Nat) ^ 56 < 2 ^ 64 := by norm_num
        omega
      simp only [h127, if_neg hcond, Nat.mod_eq_of_lt hsmall64]
      have := ih (res * 128 + b) (k + 1) rest (by simp)
        (fun x hx => hlt x (by simp [hx]))
        (by simp only [List.length_cons] at hlen ⊢; omega) hsmall
      rw [this]
      simp

theorem encodeInt_groups_le_8 {v : Nat} (h : v < 2 ^ 56) :
    (toGroupsF (v + 1) v).length ≤ 8 := by
  have h128 : v < 128 ^ 8 := by
    have : (128 : Nat) ^ 8 = 2 ^ 56 := by norm_num
    omega
  exact toGroupsF_length 8 (v + 1) v (by omega) h128 (by norm_num)

/-- The varint round-trip, stated with an arbitrary trailing stream. -/
theorem decodeInt_encodeInt (v : Nat) (rest : Bytes) (h : v < 2 ^ 56) :
    decodeInt (encodeInt v ++ rest) = .ok (v, rest) := by
  unfold decodeInt encodeInt
  have hne : (toGroupsF (v + 1) v).reverse ≠ [] := by
    simp [toGroupsF_ne_nil]
  have hlt : ∀ b ∈ (toGroupsF (v + 1) v).reverse, b < 128 := by
    intro b hb
    rw [List.mem_reverse] at hb
    exact toGroupsF_lt (v + 1) v b hb
  have hlen : 0 + (toGroupsF (v + 1) v).reverse.length ≤ 8 := by
    rw [List.length_reverse]
    have := encodeInt_groups_le_8 h
    omega
  rw [decodeIntLoop_markCont _ 0 0 rest hne hlt hlen (by norm_num)]
  rw [toGroupsF_val (v + 1) v (by omega)]

/-- The decode loop consumes at most `8 - k` further bytes, accumulates the
`res<<7 | (b & 127)` folds of the consumed bytes, stops exactly at a clear
continuation bit or at the 8-byte cap, and stays below `2 ^ (7*(k+n))`. -/
theorem decodeIntLoop_spec :
    ∀ (s : Bytes) (res k v : Nat) (rest : Bytes),
      k < 8 → res < 2 ^ (7 * k) →
      decodeIntLoop res k s = .ok (v, rest) →
      ∃ n, 1 ≤ n ∧ k + n ≤ 8 ∧ rest = s.drop n ∧
        v = (s.take n).foldl (fun a b => (a * 128 + (b &&& 127)) % 2 ^ 64) res ∧
        (∀ j, j + 1 < n → ∃ b, s.get? j = some b ∧ b &&& 128 ≠ 0) ∧
        (k + n < 8 → ∃ b, s.get? (n - 1) = some b ∧ b &&& 128 = 0) ∧
        v < 2 ^ (7 * (k + n)) := by
  intro s
  induction s with
  | nil => intro res k v rest _ _ h; exact absurd h (by simp [decodeIntLoop])
  | cons b t ih =>
    intro res k v rest hk hres h
    have hstep : res * 128 + (b &&& 127) < 2 ^ (7 * (k + 1)) := by
      have h1 : res * 128 < 2 ^ (7 * k) * 128 :=
        (Nat.mul_lt_mul_right (by norm_num : (0 : Nat) < 128)).mpr hres
      have h2 : 2 ^ (7 * k) * 128 = 2 ^ (7 * (k + 1)) := by
        rw [Nat.mul_add, pow_add]; norm_num
      have := and127_le b
      omega
    have hstep64 : res * 128 + (b &&& 127) < 2 ^ 64 := by
      have h3 : 7 * (k + 1) ≤ 56 := by omega
      have h4 : (2 : Nat) ^ (7 * (k + 1)) ≤ 2 ^ 56 :=
        Nat.pow_le_pow_right (by norm_num) h3
      have h5 : (2 : Nat) ^ 56 < 2 ^ 64 := by norm_num
      omega
    unfold decodeIntLoop at h
    simp only [Nat.mod_eq_of_lt hstep64] at h
    by_cases hcond : b &&& 128 = 0 ∨ k + 1 ≥ 8
    · rw [if_pos hcond] at h
      simp only [Except.ok.injEq, Prod.mk.injEq] at h
      refine ⟨1, by omega, by omega, by simp [h.2], ?_, ?_, ?_, ?_⟩
      · simp only [List.take_succ_cons, List.take_zero, List.foldl_cons,
          List.foldl_nil]
        rw [Nat.mod_eq_of_lt hstep64]
        exact h.1.symm
      · intro j hj; omega
      · intro hlt8
        have hb : b &&& 128 = 0 := by
          rcases hcond with hc | hc
          · exact hc
          · omega
        exact ⟨b, by simp, hb⟩
      · rw [← h.1]; simpa using hstep
    · rw [if_neg hcond] at h
      push_neg at hcond
      have hk1 : k + 1 < 8 := by omega
      obtain ⟨n', h1, h2, h3, h4, h5, h6, h7⟩ :=
        ih (res * 128 + (b &&& 127)) (k + 1) v rest hk1 hstep h
      refine ⟨n' + 1, by omega, by omega, by simpa using h3, ?_, ?_, ?_, ?_⟩
      · simp only [List.take_succ_cons, List.foldl_cons]
        rw [Nat.mod_eq_of_lt hstep64]
        exact h4
      · intro j hj
        cases j with
        | zero => exact ⟨b, by simp, hcond.1⟩
        | succ j =>
          have := h5 j (by omega)
          simpa using this
      · intro hlt8
        obtain ⟨b', hb', hb2⟩ := h6 (by omega)
        refine ⟨b', ?_, hb2⟩
        have hsimp : n' + 1 - 1 = n' := by omega
        rw [hsimp]
        obtain ⟨m, rfl⟩ : ∃ m, n' = m + 1 := ⟨n' - 1, by omega⟩
        simpa using hb'
      · have : 7 * (k + 1 + n') = 7 * (k + (n' + 1)) := by ring
        rw [← this]
        exact h7

/-! ### Two's-complement and byte-range lemmas -/

theorem beBytes_mem_lt (w v : Nat) : ∀ b ∈ beBytes w v, b < 256 := by
  induction w generalizing v with
  | zero => intro b hb; simp [beBytes] at hb
  | succ w ih =>
    intro b hb
    simp only [beBytes, List.mem_append, List.mem_singleton] at hb
    rcases hb with hb | hb
    · exact ih _ b hb
    · subst hb; exact Nat.mod_lt _ (by norm_num)

theorem int64Bytes_length (i : Int) : (int64Bytes i).length = 8 :=
  beBytes_length 8 _

theorem int32Bytes_length (i : Int) : (int32Bytes i).length = 4 :=
  beBytes_length 4 _

theorem int64_emod_toNat_lt (i : Int) : (i % (2 ^ 64 : Int)).toNat < 2 ^ 64 := by
  have h1 : 0 ≤ i % (2 ^ 64 : Int) := Int.emod_nonneg i (by norm_num)
  have h2 : i % (2 ^ 64 : Int) < 2 ^ 64 := Int.emod_lt_of_pos i (by norm_num)
  omega

theorem int32_emod_toNat_lt (i : Int) : (i % (2 ^ 32 : Int)).toNat < 2 ^ 32 := by
  have h1 : 0 ≤ i % (2 ^ 32 : Int) := Int.emod_nonneg i (by norm_num)
  have h2 : i % (2 ^ 32 : Int) < 2 ^ 32 := Int.emod_lt_of_pos i (by norm_num)
  omega

theorem beVal_int64Bytes (i : Int) :
    beVal (int64Bytes i) = (i % (2 ^ 64 : Int)).toNat := by
  unfold int64Bytes
  have h : (i % (2 ^ 64 : Int)).toNat < 256 ^ 8 := by
    have := int64_emod_toNat_lt i
    norm_num at this ⊢
    omega
  exact beVal_beBytes_of_lt h

theorem beVal_int32Bytes (i : Int) :
    beVal (int32Bytes i) = (i % (2 ^ 32 : Int)).toNat := by
  unfold int32Bytes
  have h : (i % (2 ^ 32 : Int)).toNat < 256 ^ 4 := by
    have := int32_emod_toNat_lt i
    norm_num at this ⊢
    omega
  exact beVal_beBytes_of_lt h

theorem toInt64_int64Bytes {i : Int} (h1 : -(2 ^ 63) ≤ i) (h2 : i < 2 ^ 63) :
    toInt64 (beVal (int64Bytes i)) = i := by
  rw [beVal_int64Bytes]
  unfold toInt64
  have hnn : 0 ≤ i % (2 ^ 64 : Int) := Int.emod_nonneg i (by norm_num)
  have hlt : i % (2 ^ 64 : Int) < 2 ^ 64 := Int.emod_lt_of_pos i (by norm_num)
  have hch : i % (2 ^ 64 : Int) = i ∨ i % (2 ^ 64 : Int) = i + 2 ^ 64 := by
    rcases Int.le_or_lt 0 i with hp | hn
    · left
      exact Int.emod_eq_of_lt hp (by omega)
    · right
      have : (i + 2 ^ 64) % (2 ^ 64 : Int) = i % (2 ^ 64 : Int) := by
        omega
      rw [← this]
      exact Int.emod_eq_of_lt (by omega) (by omega)
  split
  · next hlt63 =>
    rcases hch with hc | hc <;> omega
  · next hge63 =>
    rcases hch with hc | hc <;> omega

theorem toInt32_int32Bytes {i : Int} (h1 : -(2 ^ 31) ≤ i) (h2 : i < 2 ^ 31) :
    toInt32 (beVal (int32Bytes i)) = i := by
  rw [beVal_int32Bytes]
  unfold toInt32
  have hnn : 0 ≤ i % (2 ^ 32 : Int) := Int.emod_nonneg i (by norm_num)
  have hlt : i % (2 ^ 32 : Int) < 2 ^ 32 := Int.emod_lt_of_pos i (by norm_num)
  have hch : i % (2 ^ 32 : Int) = i ∨ i % (2 ^ 32 : Int) = i + 2 ^ 32 := by
    rcases Int.le_or_lt 0 i with hp | hn
    · left
      exact Int.emod_eq_of_lt hp (by omega)
    · right
      have : (i + 2 ^ 32) % (2 ^ 32 : Int) = i % (2 ^ 32 : Int) := by
        omega
      rw [← this]
      exact Int.emod_eq_of_lt (by omega) (by omega)
  split
  · next hlt31 =>
    rcases hch with hc | hc <;> omega
  · next hge31 =>
    rcases hch with hc | hc <;> omega

theorem int64Bytes_ofNat {n : Nat} (h : n < 2 ^ 63) :
    int64Bytes (n : Int) = beBytes 8 n := by
  unfold int64Bytes
  have : ((n : Int) % (2 ^ 64 : Int)) = (n : Int) := by
    apply Int.emod_eq_of_lt (by omega)
    omega
  rw [this]
  simp

theorem beVal_beBytes2 {v : Nat} (h : v < 2 ^ 16) : beVal (beBytes 2 v) = v :=
  beVal_beBytes_of_lt (by norm_num at h ⊢; omega)

theorem beVal_beBytes4 {v : Nat} (h : v < 2 ^ 32) : beVal (beBytes 4 v) = v :=
  beVal_beBytes_of_lt (by norm_num at h ⊢; omega)

theorem beVal_beBytes8 {v : Nat} (h : v < 2 ^ 64) : beVal (beBytes 8 v) = v :=
  beVal_beBytes_of_lt (by norm_num at h ⊢; omega)

theorem tagBytes_length (t : FourByteString) : (tagBytes t).length = 4 := rfl

/-! ### Payload round trips -/

theorem parseAudioFormat_encode {a : AudioFormat} (h : afWF a = true) :
    parseAudioFormat (AudioFormat.encode a) = a := by
  simp only [afWF, tagOK, u32OK, Bool.and_eq_true, decide_eq_true_eq] at h
  obtain ⟨⟨⟨⟨⟨⟨hsr, hfid⟩, hff⟩, hbpp⟩, hfpp⟩, hcpp⟩, hbpc⟩ := h
  unfold AudioFormat.encode
  set r1 := tagBytes a.FormatID ++ (beBytes 4 a.FormatFlags ++
    (beBytes 4 a.BytesPerPacket ++ (beBytes 4 a.FramesPerPacket ++
    (beBytes 4 a.ChannelsPerPacket ++ beBytes 4 a.BitsPerChannel)))) with hr1
  have henc : beBytes 8 a.SampleRate ++ tagBytes a.FormatID ++
      beBytes 4 a.FormatFlags ++ beBytes 4 a.BytesPerPacket ++
      beBytes 4 a.FramesPerPacket ++ beBytes 4 a.ChannelsPerPacket ++
      beBytes 4 a.BitsPerChannel = beBytes 8 a.SampleRate ++ r1 := by
    rw [hr1]; simp [List.append_assoc]
  rw [henc]
  have t8 : (beBytes 8 a.SampleRate ++ r1).take 8 = beBytes 8 a.SampleRate :=
    List.take_left' (beBytes_length 8 _)
  have d8 : (beBytes 8 a.SampleRate ++ r1).drop 8 = r1 :=
    List.drop_left' (beBytes_length 8 _)
  set r2 := beBytes 4 a.FormatFlags ++ (beBytes 4 a.BytesPerPacket ++
    (beBytes 4 a.FramesPerPacket ++ (beBytes 4 a.ChannelsPerPacket ++
    beBytes 4 a.BitsPerChannel))) with hr2
  have d12 : (beBytes 8 a.SampleRate ++ r1).drop 12 = r2 := by
    rw [show (12 : Nat) = 8 + 4 from rfl, ← List.drop_drop, d8, hr1]
    exact List.drop_left' (tagBytes_length _)
  set r3 := beBytes 4 a.BytesPerPacket ++ (beBytes 4 a.FramesPerPacket ++
    (beBytes 4 a.ChannelsPerPacket ++ beBytes 4 a.BitsPerChannel)) with hr3
  have d16 : (beBytes 8 a.SampleRate ++ r1).drop 16 = r3 := by
    rw [show (16 : Nat) = 12 + 4 from rfl, ← List.drop_drop, d12, hr2]
    exact List.drop_left' (beBytes_length 4 _)
  set r4 := beBytes 4 a.FramesPerPacket ++ (beBytes 4 a.ChannelsPerPacket ++
    beBytes 4 a.BitsPerChannel) with hr4
  have d20 : (beBytes 8 a.SampleRate ++ r1).drop 20 = r4 := by
    rw [show (20 : Nat) = 16 + 4 from rfl, ← List.drop_drop, d16, hr3]
    exact List.drop_left' (beBytes_length 4 _)
  set r5 := beBytes 4 a.ChannelsPerPacket ++ beBytes 4 a.BitsPerChannel
    with hr5
  have d24 : (beBytes 8 a.SampleRate ++ r1).drop 24 = r5 := by
    rw [show (24 : Nat) = 20 + 4 from rfl, ← List.drop_drop, d20, hr4]
    exact List.drop_left' (beBytes_length 4 _)
  have d28 : (beBytes 8 a.SampleRate ++ r1).drop 28 =
      beBytes 4 a.BitsPerChannel := by
    rw [show (28 : Nat) = 24 + 4 from rfl, ← List.drop_drop, d24, hr5]
    exact List.drop_left' (beBytes_length 4 _)
  unfold parseAudioFormat
  rw [t8, d8, d12, d16, d20, d24, d28]
  rw [hr1, hr2, hr3, hr4, hr5]
  simp only [tagBytes, List.cons_append, List.nil_append, List.getD_cons_zero,
    List.getD_cons_succ]
  rw [List.take_left' (beBytes_length 4 _), List.take_left' (beBytes_length 4 _),
    List.take_left' (beBytes_length 4 _), List.take_left' (beBytes_length 4 _)]
  rw [List.take_of_length_le (by rw [beBytes_length])]
  rw [beVal_beBytes8 hsr, beVal_beBytes4 hff, beVal_beBytes4 hbpp,
    beVal_beBytes4 hfpp, beVal_beBytes4 hcpp, beVal_beBytes4 hbpc]

theorem AudioFormat_decode_encode {a : AudioFormat} (rest : Bytes)
    (h : afWF a = true) :
    AudioFormat.decode (AudioFormat.encode a ++ rest) = .ok (a, rest) := by
  unfold AudioFormat.decode
  have hlen : (AudioFormat.encode a).length = 32 := by
    unfold AudioFormat.encode
    simp [List.length_append, beBytes_length, tagBytes_length]
  rw [readN_append rest hlen]
  show Except.ok (parseAudioFormat (AudioFormat.encode a), rest) =
    Except.ok (a, rest)
  rw [parseAudioFormat_encode h]

theorem parseChannelDescription_encode {d : ChannelDescription}
    (h : cdWF d = true) :
    parseChannelDescription (ChannelDescription.encode d) = d := by
  simp only [cdWF, u32OK, Bool.and_eq_true, decide_eq_true_eq] at h
  obtain ⟨⟨⟨⟨hlab, hflg⟩, hc1⟩, hc2⟩, hc3⟩ := h
  unfold ChannelDescription.encode
  set r1 := beBytes 4 d.ChannelFlags ++ (beBytes 4 d.Coordinates.1 ++
    (beBytes 4 d.Coordinates.2.1 ++ beBytes 4 d.Coordinates.2.2)) with hr1
  have henc : beBytes 4 d.ChannelLabel ++ beBytes 4 d.ChannelFlags ++
      beBytes 4 d.Coordinates.1 ++ beBytes 4 d.Coordinates.2.1 ++
      beBytes 4 d.Coordinates.2.2 = beBytes 4 d.ChannelLabel ++ r1 := by
    rw [hr1]; simp [List.append_assoc]
  rw [henc]
  have t4 : (beBytes 4 d.ChannelLabel ++ r1).take 4 = beBytes 4 d.ChannelLabel :=
    List.take_left' (beBytes_length 4 _)
  have d4 : (beBytes 4 d.ChannelLabel ++ r1).drop 4 = r1 :=
    List.drop_left' (beBytes_length 4 _)
  set r2 := beBytes 4 d.Coordinates.1 ++
    (beBytes 4 d.Coordinates.2.1 ++ beBytes 4 d.Coordinates.2.2) with hr2
  have d8 : (beBytes 4 d.ChannelLabel ++ r1).drop 8 = r2 := by
    rw [show (8 : Nat) = 4 + 4 from rfl, ← List.drop_drop, d4, hr1]
    exact List.drop_left' (beBytes_length 4 _)
  set r3 := beBytes 4 d.Coordinates.2.1 ++ beBytes 4 d.Coordinates.2.2
    with hr3
  have d12 : (beBytes 4 d.ChannelLabel ++ r1).drop 12 = r3 := by
    rw [show (12 : Nat) = 8 + 4 from rfl, ← List.drop_drop, d8, hr2]
    exact List.drop_left' (beBytes_length 4 _)
  have d16 : (beBytes 4 d.ChannelLabel ++ r1).drop 16 =
      beBytes 4 d.Coordinates.2.2 := by
    rw [show (16 : Nat) = 12 + 4 from rfl, ← List.drop_drop, d12, hr3]
    exact List.drop_left' (beBytes_length 4 _)
  unfold parseChannelDescription
  rw [t4, d4, d8, d12, d16, hr1, hr2, hr3]
  rw [List.take_left' (beBytes_length 4 _), List.take_left' (beBytes_length 4 _),
    List.take_left' (beBytes_length 4 _),
    List.take_of_length_le (by rw [beBytes_length])]
  rw [beVal_beBytes4 hlab, beVal_beBytes4 hflg, beVal_beBytes4 hc1,
    beVal_beBytes4 hc2, beVal_beBytes4 hc3]

theorem ChannelDescription_encode_length (d : ChannelDescription) :
    (ChannelDescription.encode d).length = 20 := by
  unfold ChannelDescription.encode
  simp [List.length_append, beBytes_length]

theorem readChannelDescription_encode {d : ChannelDescription} (rest : Bytes)
    (h : cdWF d = true) :
    readChannelDescription (ChannelDescription.encode d ++ rest) =
      .ok (d, rest) := by
  unfold readChannelDescription
  simp only [readN_append rest (ChannelDescription_encode_length d)]
  rw [parseChannelDescription_encode h]

theorem decodeChannelDescriptions_encode :
    ∀ (l : List ChannelDescription) (rest : Bytes),
      (∀ d ∈ l, cdWF d = true) →
      decodeChannelDescriptions l.length
        ((l.map ChannelDescription.encode).flatten ++ rest) = .ok (l, rest) := by
  intro l
  induction l with
  | nil => intro rest _; simp [decodeChannelDescriptions]
  | cons d t ih =>
    intro rest hwf
    simp only [List.map_cons, List.flatten_cons, List.length_cons,
      List.append_assoc]
    unfold decodeChannelDescriptions
    simp only [readChannelDescription_encode
      ((t.map ChannelDescription.encode).flatten ++ rest) (hwf d (by simp)),
      ih rest (fun x hx => hwf x (by simp [hx]))]

theorem ChannelLayout_encode_ok {c : ChannelLayout} (h : clWF c = true) :
    ChannelLayout.encode c =
      .ok (beBytes 4 c.ChannelLayoutTag ++ (beBytes 4 c.ChannelBitmap ++
        (beBytes 4 c.NumberChannelDescriptions ++
          ((c.Channels.map ChannelDescription.encode).flatten)))) := by
  simp only [clWF, u32OK, Bool.and_eq_true, decide_eq_true_eq] at h
  obtain ⟨⟨⟨⟨htag, hbm⟩, hcnt⟩, hcnteq⟩, hall⟩ := h
  unfold ChannelLayout.encode
  rw [if_pos (by omega)]
  rw [show c.Channels.take c.NumberChannelDescriptions = c.Channels from by
    rw [hcnteq]; exact List.take_of_length_le (by omega)]
  simp [List.append_assoc]

theorem ChannelLayout_decode_encode {c : ChannelLayout} (rest enc : Bytes)
    (h : clWF c = true) (henc : ChannelLayout.encode c = .ok enc) :
    ChannelLayout.decode (enc ++ rest) = .ok (c, rest) := by
  rw [ChannelLayout_encode_ok h] at henc
  injection henc with henc
  subst henc
  have hc := h
  simp only [clWF, u32OK, Bool.and_eq_true, decide_eq_true_eq] at hc
  obtain ⟨⟨⟨⟨htag, hbm⟩, hcnt⟩, hcnteq⟩, hall⟩ := hc
  unfold ChannelLayout.decode
  simp only [List.append_assoc]
  rw [readN_append _ (beBytes_length 4 _)]
  simp only []
  rw [readN_append _ (beBytes_length 4 _)]
  simp only []
  rw [readN_append _ (beBytes_length 4 _)]
  simp only []
  rw [beVal_beBytes4 hcnt, hcnteq]
  rw [decodeChannelDescriptions_encode c.Channels rest
    (fun d hd => by
      have := List.all_eq_true.mp hall d hd
      simpa using this)]
  simp only []
  rw [beVal_beBytes4 htag, beVal_beBytes4 hbm]
  have heta : ChannelLayout.mk c.ChannelLayoutTag c.ChannelBitmap
      c.Channels.length c.Channels = c := by
    rw [← hcnteq]
  rw [heta]

theorem readString_append :
    ∀ (str rest : Bytes), strOK str = true →
      readString (str ++ rest) = .ok (str, rest) := by
  intro str
  induction str with
  | nil =>
    intro rest h
    simp [strOK] at h
  | cons b t ih =>
    intro rest h
    simp only [strOK, Bool.and_eq_true, decide_eq_true_eq] at h
    obtain ⟨⟨hne, hlast⟩, hmid⟩ := h
    cases t with
    | nil =>
      have hb : b = 0 := by simpa using hlast
      subst hb
      simp [readString]
    | cons c u =>
      have hbmem : b ∈ (b :: c :: u).dropLast := by
        simp [List.dropLast_cons₂]
      have hb := List.all_eq_true.mp hmid b hbmem
      simp only [Bool.and_eq_true, decide_eq_true_eq] at hb
      have hbne : ¬ (b = 0) := hb.1
      have hsub : strOK (c :: u) = true := by
        simp only [strOK, Bool.and_eq_true, decide_eq_true_eq]
        refine ⟨⟨by simp, by simpa using hlast⟩, ?_⟩
        rw [List.all_eq_true]
        intro x hx
        refine List.all_eq_true.mp hmid x ?_
        rw [List.dropLast_cons₂]
        simp [hx]
      show (if b = 0 then Except.ok ([b], (c :: u) ++ rest)
        else match readString ((c :: u) ++ rest) with
          | .error e => .error e
          | .ok (bs, s1) => .ok (b :: bs, s1)) = Except.ok (b :: c :: u, rest)
      rw [if_neg hbne, ih rest hsub]

theorem Information_decode_encode {i : Information} (rest : Bytes)
    (h : infoWF i = true) :
    Information.decode (Information.encode i ++ rest) = .ok (i, rest) := by
  simp only [infoWF, Bool.and_eq_true] at h
  unfold Information.decode Information.encode writeString
  rw [List.append_assoc]
  rw [readString_append i.Key (i.Value ++ rest) h.1]
  simp only []
  rw [readString_append i.Value rest h.2]

theorem decodeInformations_encode :
    ∀ (l : List Information) (rest : Bytes),
      (∀ i ∈ l, infoWF i = true) →
      decodeInformations l.length
        ((l.map Information.encode).flatten ++ rest) = .ok (l, rest) := by
  intro l
  induction l with
  | nil => intro rest _; simp [decodeInformations]
  | cons i t ih =>
    intro rest hwf
    simp only [List.map_cons, List.flatten_cons, List.length_cons,
      List.append_assoc]
    unfold decodeInformations
    simp only [Information_decode_encode
      ((t.map Information.encode).flatten ++ rest) (hwf i (by simp)),
      ih rest (fun x hx => hwf x (by simp [hx]))]

theorem CAFStringsChunk_encode_ok {c : CAFStringsChunk} (h : stWF c = true) :
    CAFStringsChunk.encode c =
      .ok (beBytes 4 c.NumEntries ++
        ((c.Strings.map Information.encode).flatten)) := by
  simp only [stWF, u32OK, Bool.and_eq_true, decide_eq_true_eq] at h
  obtain ⟨⟨hcnt, hcnteq⟩, hall⟩ := h
  unfold CAFStringsChunk.encode
  rw [if_pos (by omega)]
  rw [show c.Strings.take c.NumEntries = c.Strings from by
    rw [hcnteq]; exact List.take_of_length_le (by omega)]

theorem CAFStringsChunk_decode_encode {c : CAFStringsChunk} (rest enc : Bytes)
    (h : stWF c = true) (henc : CAFStringsChunk.encode c = .ok enc) :
    CAFStringsChunk.decode (enc ++ rest) = .ok (c, rest) := by
  rw [CAFStringsChunk_encode_ok h] at henc
  injection henc with henc
  subst henc
  have hc := h
  simp only [stWF, u32OK, Bool.and_eq_true, decide_eq_true_eq] at hc
  obtain ⟨⟨hcnt, hcnteq⟩, hall⟩ := hc
  unfold CAFStringsChunk.decode
  rw [List.append_assoc]
  rw [readN_append _ (beBytes_length 4 _)]
  simp only []
  rw [beVal_beBytes4 hcnt, hcnteq]
  rw [decodeInformations_encode c.Strings rest
    (fun i hi => by
      have := List.all_eq_true.mp hall i hi
      simpa using this)]
  simp only []
  have heta : CAFStringsChunk.mk c.Strings.length c.Strings = c := by
    rw [← hcnteq]
  rw [heta]

theorem parsePacketTableHeader_encode {h : PacketTableHeader}
    (h1 : int64OK h.NumberPackets = true)
    (h2 : int64OK h.NumberValidFrames = true)
    (h3 : int32OK h.PrimingFramess = true)
    (h4 : int32OK h.RemainderFrames = true) :
    parsePacketTableHeader (int64Bytes h.NumberPackets ++
      (int64Bytes h.NumberValidFrames ++ (int32Bytes h.PrimingFramess ++
        int32Bytes h.RemainderFrames))) = h := by
  simp only [int64OK, int32OK, Bool.and_eq_true, decide_eq_true_eq] at h1 h2 h3 h4
  set r1 := int64Bytes h.NumberValidFrames ++ (int32Bytes h.PrimingFramess ++
    int32Bytes h.RemainderFrames) with hr1
  have t8 : (int64Bytes h.NumberPackets ++ r1).take 8 =
      int64Bytes h.NumberPackets := List.take_left' (int64Bytes_length _)
  have d8 : (int64Bytes h.NumberPackets ++ r1).drop 8 = r1 :=
    List.drop_left' (int64Bytes_length _)
  set r2 := int32Bytes h.PrimingFramess ++ int32Bytes h.RemainderFrames
    with hr2
  have d16 : (int64Bytes h.NumberPackets ++ r1).drop 16 = r2 := by
    rw [show (16 : Nat) = 8 + 8 from rfl, ← List.drop_drop, d8, hr1]
    exact List.drop_left' (int64Bytes_length _)
  have d20 : (int64Bytes h.NumberPackets ++ r1).drop 20 =
      int32Bytes h.RemainderFrames := by
    rw [show (20 : Nat) = 16 + 4 from rfl, ← List.drop_drop, d16, hr2]
    exact List.drop_left' (int32Bytes_length _)
  unfold parsePacketTableHeader
  rw [t8, d8, d16, d20, hr1, hr2]
  rw [List.take_left' (int64Bytes_length _), List.take_left' (int32Bytes_length _),
    List.take_of_length_le (by rw [int32Bytes_length])]
  rw [toInt64_int64Bytes h1.1 h1.2, toInt64_int64Bytes h2.1 h2.2,
    toInt32_int32Bytes h3.1 h3.2, toInt32_int32Bytes h4.1 h4.2]

theorem decodePacketEntries_encode :
    ∀ (l : List Nat) (rest : Bytes),
      (∀ v ∈ l, v < 2 ^ 56) →
      decodePacketEntries l.length ((l.map encodeInt).flatten ++ rest) =
        .ok (l, rest) := by
  intro l
  induction l with
  | nil => intro rest _; simp [decodePacketEntries]
  | cons v t ih =>
    intro rest hwf
    simp only [List.map_cons, List.flatten_cons, List.length_cons,
      List.append_assoc]
    unfold decodePacketEntries
    simp only [decodeInt_encodeInt v ((t.map encodeInt).flatten ++ rest)
      (hwf v (by simp)),
      ih rest (fun x hx => hwf x (by simp [hx]))]

theorem PacketTable_encode_ok {c : PacketTable} (h : ptWF c = true) :
    PacketTable.encode c =
      .ok (int64Bytes c.Header.NumberPackets ++
        (int64Bytes c.Header.NumberValidFrames ++
          (int32Bytes c.Header.PrimingFramess ++
            (int32Bytes c.Header.RemainderFrames ++
              ((c.Entry.map encodeInt).flatten))))) := by
  simp only [ptWF, int64OK, int32OK, Bool.and_eq_true, decide_eq_true_eq] at h
  obtain ⟨⟨⟨⟨⟨hcnteq, _⟩, _⟩, _⟩, _⟩, _⟩ := h
  unfold PacketTable.encode
  have htn : c.Header.NumberPackets.toNat = c.Entry.length := by
    rw [hcnteq]; simp
  rw [if_pos (by omega), htn]
  rw [List.take_of_length_le (by omega)]
  simp [List.append_assoc]

theorem PacketTable_decode_encode {c : PacketTable} (rest enc : Bytes)
    (h : ptWF c = true) (henc : PacketTable.encode c = .ok enc) :
    PacketTable.decode (enc ++ rest) = .ok (c, rest) := by
  rw [PacketTable_encode_ok h] at henc
  injection henc with henc
  subst henc
  have hc := h
  simp only [ptWF, int64OK, int32OK, Bool.and_eq_true, decide_eq_true_eq] at hc
  obtain ⟨⟨⟨⟨⟨hcnteq, hnp⟩, hnvf⟩, hpf⟩, hrf⟩, hall⟩ := hc
  unfold PacketTable.decode
  have hsplit : int64Bytes c.Header.NumberPackets ++
      (int64Bytes c.Header.NumberValidFrames ++
        (int32Bytes c.Header.PrimingFramess ++
          (int32Bytes c.Header.RemainderFrames ++
            ((c.Entry.map encodeInt).flatten)))) ++ rest =
      (int64Bytes c.Header.NumberPackets ++
        (int64Bytes c.Header.NumberValidFrames ++
          (int32Bytes c.Header.PrimingFramess ++
            int32Bytes c.Header.RemainderFrames))) ++
        ((c.Entry.map encodeInt).flatten ++ rest) := by
    simp [List.append_assoc]
  rw [hsplit]
  have hlen24 : (int64Bytes c.Header.NumberPackets ++
      (int64Bytes c.Header.NumberValidFrames ++
        (int32Bytes c.Header.PrimingFramess ++
          int32Bytes c.Header.RemainderFrames))).length = 24 := by
    simp [List.length_append, int64Bytes_length, int32Bytes_length]
  rw [readN_append _ hlen24]
  simp only []
  rw [parsePacketTableHeader_encode
    (by simp [int64OK, hcnteq]; omega)
    (by simp [int64OK]; omega) (by simp [int32OK]; omega)
    (by simp [int32OK]; omega)]
  have htn : c.Header.NumberPackets.toNat = c.Entry.length := by
    rw [hcnteq]; simp
  rw [htn]
  rw [decodePacketEntries_encode c.Entry rest
    (fun v hv => by
      have := List.all_eq_true.mp hall v hv
      simpa using this)]

theorem Data_decode_encode_sized {d : Caf.Data} {h : ChunkHeader}
    (rest : Bytes) (hec : d.EditCount < 2 ^ 32)
    (hsz : h.ChunkSize = 4 + (d.Data.length : Int)) :
    Data.decode h (Data.encode d ++ rest) = .ok (d, rest) := by
  unfold Data.decode Data.encode
  rw [List.append_assoc]
  rw [readN_append _ (beBytes_length 4 _)]
  simp only []
  have hne : ¬ (h.ChunkSize = -1) := by rw [hsz]; omega
  rw [if_neg hne, hsz]
  have htn : ((4 : Int) + (d.Data.length : Int) - 4).toNat = d.Data.length := by
    omega
  rw [htn]
  rw [List.take_left' rfl, List.drop_left' rfl]
  rw [beVal_beBytes4 hec]

theorem Data_decode_encode_sentinel {d : Caf.Data} {h : ChunkHeader}
    (hec : d.EditCount < 2 ^ 32) (hsz : h.ChunkSize = -1) :
    Data.decode h (Data.encode d) = .ok (d, []) := by
  unfold Data.decode Data.encode
  rw [readN_append _ (beBytes_length 4 _)]
  simp only []
  rw [if_pos hsz, beVal_beBytes4 hec]

theorem FileHeader_encode_length (h : FileHeader) :
    (FileHeader.Encode h).length = 8 := by
  unfold FileHeader.Encode
  simp [List.length_append, beBytes_length, tagBytes_length]

theorem FileHeader_decode_encode {h : FileHeader} (rest : Bytes)
    (hwf : headerWF h = true)
    (htag : h.FileType = stringToChunkType [99, 97, 102, 102]) :
    FileHeader.Decode (FileHeader.Encode h ++ rest) = .ok (h, rest) := by
  simp only [headerWF, tagOK, Bool.and_eq_true, decide_eq_true_eq] at hwf
  obtain ⟨⟨_, hver⟩, hflg⟩ := hwf
  unfold FileHeader.Decode
  rw [readN_append rest (FileHeader_encode_length h)]
  simp only []
  unfold FileHeader.Encode
  set r1 := beBytes 2 h.FileVersion ++ beBytes 2 h.FileFlags with hr1
  have d4 : (tagBytes h.FileType ++ r1).drop 4 = r1 :=
    List.drop_left' (tagBytes_length _)
  have d6 : (tagBytes h.FileType ++ r1).drop 6 = beBytes 2 h.FileFlags := by
    rw [show (6 : Nat) = 4 + 2 from rfl, ← List.drop_drop, d4, hr1]
    exact List.drop_left' (beBytes_length 2 _)
  simp only [tagBytes, List.cons_append, List.nil_append, List.getD_cons_zero,
    List.getD_cons_succ]
  have d4' : (h.FileType.b0 :: h.FileType.b1 :: h.FileType.b2 ::
      h.FileType.b3 :: r1).drop 4 = r1 := rfl
  have d6' : (h.FileType.b0 :: h.FileType.b1 :: h.FileType.b2 ::
      h.FileType.b3 :: r1).drop 6 = r1.drop 2 := rfl
  rw [d4', d6', hr1]
  rw [List.take_left' (beBytes_length 2 _), List.drop_left' (beBytes_length 2 _)]
  rw [beVal_beBytes2 hver, beVal_beBytes2 hflg]
  have hmk : FourByteString.mk h.FileType.b0 h.FileType.b1 h.FileType.b2
      h.FileType.b3 = h.FileType := rfl
  rw [hmk, if_neg (by simp [htag])]

theorem chunkHeaderBytes_length (t : FourByteString) (sz : Int) :
    (tagBytes t ++ int64Bytes sz).length = 12 := by
  simp [List.length_append, tagBytes_length, int64Bytes_length]

theorem parseChunkHeader_encode {t : FourByteString} {sz : Int}
    (h1 : -(2 ^ 63) ≤ sz) (h2 : sz < 2 ^ 63) :
    parseChunkHeader (tagBytes t ++ int64Bytes sz) = ⟨t, sz⟩ := by
  unfold parseChunkHeader
  simp only [tagBytes, List.cons_append, List.nil_append, List.getD_cons_zero,
    List.getD_cons_succ]
  have d4 : (t.b0 :: t.b1 :: t.b2 :: t.b3 :: int64Bytes sz).drop 4 =
      int64Bytes sz := rfl
  rw [d4, toInt64_int64Bytes h1 h2]


/-- A decoded-then-re-encoded chunk parses back to itself with the trailing
stream untouched (non-sentinel chunks; the sentinel data chunk is handled by
`Chunk_decode_encode_last`). -/
theorem Chunk_decode_encode_mid {c : Chunk} (rest enc : Bytes)
    (h : chunkWF false c = true) (henc : Chunk.Encode c = .ok enc) :
    Chunk.decode (enc ++ rest) = .ok (c, rest) := by
  obtain ⟨⟨t, sz⟩, cont⟩ := c
  cases cont with
  | audioFormat a =>
    simp only [chunkWF, int64OK, tagOK, Bool.and_eq_true,
      decide_eq_true_eq] at h
    obtain ⟨⟨-, hszlo, hszhi⟩, htag, haf⟩ := h
    subst htag
    have hchunk : Chunk.Encode ⟨⟨ChunkTypeAudioDescription, sz⟩,
        .audioFormat a⟩ = .ok ((tagBytes ChunkTypeAudioDescription ++
          int64Bytes sz) ++ AudioFormat.encode a) := rfl
    rw [hchunk] at henc
    injection henc with h2
    subst h2
    unfold Chunk.decode
    rw [List.append_assoc, readN_append _ (chunkHeaderBytes_length _ sz)]
    simp only [parseChunkHeader_encode hszlo hszhi, if_true]
    rw [AudioFormat_decode_encode rest haf]
  | channelLayout cl =>
    simp only [chunkWF, int64OK, tagOK, Bool.and_eq_true,
      decide_eq_true_eq] at h
    obtain ⟨⟨-, hszlo, hszhi⟩, htag, hcl⟩ := h
    subst htag
    have hok := ChannelLayout_encode_ok hcl
    have hchunk : Chunk.Encode ⟨⟨ChunkTypeChannelLayout, sz⟩,
        .channelLayout cl⟩ = .ok ((tagBytes ChunkTypeChannelLayout ++
          int64Bytes sz) ++ (beBytes 4 cl.ChannelLayoutTag ++
            (beBytes 4 cl.ChannelBitmap ++
              (beBytes 4 cl.NumberChannelDescriptions ++
                ((cl.Channels.map ChannelDescription.encode).flatten))))) := by
      show (match ChannelLayout.encode cl with
        | Except.error e => Except.error e
        | Except.ok b => Except.ok ((tagBytes ChunkTypeChannelLayout ++
            int64Bytes sz) ++ b)) = _
      rw [hok]
    rw [hchunk] at henc
    injection henc with h2
    subst h2
    unfold Chunk.decode
    rw [List.append_assoc, readN_append _ (chunkHeaderBytes_length _ sz)]
    simp only [parseChunkHeader_encode hszlo hszhi, if_true]
    rw [ChannelLayout_decode_encode rest _ hcl hok]
    rw [if_neg (show ¬ (ChunkTypeChannelLayout = ChunkTypeAudioDescription)
      from by decide)]
  | strings st =>
    simp only [chunkWF, int64OK, tagOK, Bool.and_eq_true,
      decide_eq_true_eq] at h
    obtain ⟨⟨-, hszlo, hszhi⟩, htag, hst⟩ := h
    subst htag
    have hok := CAFStringsChunk_encode_ok hst
    have hchunk : Chunk.Encode ⟨⟨ChunkTypeInformation, sz⟩,
        .strings st⟩ = .ok ((tagBytes ChunkTypeInformation ++
          int64Bytes sz) ++ (beBytes 4 st.NumEntries ++
            ((st.Strings.map Information.encode).flatten))) := by
      show (match CAFStringsChunk.encode st with
        | Except.error e => Except.error e
        | Except.ok b => Except.ok ((tagBytes ChunkTypeInformation ++
            int64Bytes sz) ++ b)) = _
      rw [hok]
    rw [hchunk] at henc
    injection henc with h2
    subst h2
    unfold Chunk.decode
    rw [List.append_assoc, readN_append _ (chunkHeaderBytes_length _ sz)]
    simp only [parseChunkHeader_encode hszlo hszhi, if_true]
    rw [CAFStringsChunk_decode_encode rest _ hst hok]
    rw [if_neg (show ¬ (ChunkTypeInformation = ChunkTypeAudioDescription)
      from by decide)]
    rw [if_neg (show ¬ (ChunkTypeInformation = ChunkTypeChannelLayout)
      from by decide)]
  | data d =>
    simp only [chunkWF, int64OK, tagOK, Bool.and_eq_true, Bool.false_and,
      Bool.or_false, decide_eq_true_eq] at h
    obtain ⟨⟨-, hszlo, hszhi⟩, ⟨⟨htag, hec⟩, hbytes⟩, hszeq⟩ := h
    subst htag
    have hchunk : Chunk.Encode ⟨⟨ChunkTypeAudioData, sz⟩,
        .data d⟩ = .ok ((tagBytes ChunkTypeAudioData ++
          int64Bytes sz) ++ Data.encode d) := rfl
    rw [hchunk] at henc
    injection henc with h2
    subst h2
    unfold Chunk.decode
    rw [List.append_assoc, readN_append _ (chunkHeaderBytes_length _ sz)]
    simp only [parseChunkHeader_encode hszlo hszhi, if_true]
    rw [Data_decode_encode_sized rest hec hszeq]
    rw [if_neg (show ¬ (ChunkTypeAudioData = ChunkTypeAudioDescription)
      from by decide)]
    rw [if_neg (show ¬ (ChunkTypeAudioData = ChunkTypeChannelLayout)
      from by decide)]
    rw [if_neg (show ¬ (ChunkTypeAudioData = ChunkTypeInformation)
      from by decide)]
  | packetTable pt =>
    simp only [chunkWF, int64OK, tagOK, Bool.and_eq_true,
      decide_eq_true_eq] at h
    obtain ⟨⟨-, hszlo, hszhi⟩, htag, hpt⟩ := h
    subst htag
    have hok := PacketTable_encode_ok hpt
    have hchunk : Chunk.Encode ⟨⟨ChunkTypePacketTable, sz⟩,
        .packetTable pt⟩ = .ok ((tagBytes ChunkTypePacketTable ++
          int64Bytes sz) ++ (int64Bytes pt.Header.NumberPackets ++
            (int64Bytes pt.Header.NumberValidFrames ++
              (int32Bytes pt.Header.PrimingFramess ++
                (int32Bytes pt.Header.RemainderFrames ++
                  ((pt.Entry.map encodeInt).flatten)))))) := by
      show (match PacketTable.encode pt with
        | Except.error e => Except.error e
        | Except.ok b => Except.ok ((tagBytes ChunkTypePacketTable ++
            int64Bytes sz) ++ b)) = _
      rw [hok]
    rw [hchunk] at henc
    injection henc with h2
    subst h2
    unfold Chunk.decode
    rw [List.append_assoc, readN_append _ (chunkHeaderBytes_length _ sz)]
    simp only [parseChunkHeader_encode hszlo hszhi, if_true]
    rw [PacketTable_decode_encode rest _ hpt hok]
    rw [if_neg (show ¬ (ChunkTypePacketTable = ChunkTypeAudioDescription)
      from by decide)]
    rw [if_neg (show ¬ (ChunkTypePacketTable = ChunkTypeChannelLayout)
      from by decide)]
    rw [if_neg (show ¬ (ChunkTypePacketTable = ChunkTypeInformation)
      from by decide)]
    rw [if_neg (show ¬ (ChunkTypePacketTable = ChunkTypeAudioData)
      from by decide)]
  | midi m =>
    simp only [chunkWF, int64OK, tagOK, Bool.and_eq_true,
      decide_eq_true_eq] at h
    obtain ⟨⟨-, hszlo, hszhi⟩, ⟨htag, hszeq⟩, hbytes⟩ := h
    subst htag
    have hchunk : Chunk.Encode ⟨⟨ChunkTypeMidi, sz⟩, .midi m⟩ =
        .ok ((tagBytes ChunkTypeMidi ++ int64Bytes sz) ++ m) := rfl
    rw [hchunk] at henc
    injection henc with h2
    subst h2
    unfold Chunk.decode
    rw [List.append_assoc, readN_append _ (chunkHeaderBytes_length _ sz)]
    simp only [parseChunkHeader_encode hszlo hszhi, if_true]
    rw [hszeq]
    rw [if_neg (show ¬ ((m.length : Int) < 0) from by omega)]
    rw [show ((m.length : Int)).toNat = m.length from by simp]
    rw [readN_append rest rfl]
    rw [if_neg (show ¬ (ChunkTypeMidi = ChunkTypeAudioDescription)
      from by decide)]
    rw [if_neg (show ¬ (ChunkTypeMidi = ChunkTypeChannelLayout)
      from by decide)]
    rw [if_neg (show ¬ (ChunkTypeMidi = ChunkTypeInformation)
      from by decide)]
    rw [if_neg (show ¬ (ChunkTypeMidi = ChunkTypeAudioData)
      from by decide)]
    rw [if_neg (show ¬ (ChunkTypeMidi = ChunkTypePacketTable)
      from by decide)]
  | unknown u =>
    simp only [chunkWF, int64OK, tagOK, Bool.and_eq_true,
      decide_eq_true_eq] at h
    obtain ⟨⟨-, hszlo, hszhi⟩,
      ⟨⟨⟨⟨⟨⟨hne1, hne2⟩, hne3⟩, hne4⟩, hne5⟩, hne6⟩, hszeq⟩, hbytes⟩ := h
    have hchunk : Chunk.Encode ⟨⟨t, sz⟩, .unknown u⟩ =
        .ok ((tagBytes t ++ int64Bytes sz) ++ u.Data) := by
      unfold Chunk.Encode
      simp only []
      rw [if_neg hne1, if_neg hne2, if_neg hne3, if_neg hne4, if_neg hne5,
        if_neg hne6]
    rw [hchunk] at henc
    injection henc with h2
    subst h2
    unfold Chunk.decode
    rw [List.append_assoc, readN_append _ (chunkHeaderBytes_length _ sz)]
    simp only [parseChunkHeader_encode hszlo hszhi]
    rw [if_neg hne1, if_neg hne2, if_neg hne3, if_neg hne4, if_neg hne5,
      if_neg hne6]
    rw [hszeq]
    rw [if_neg (show ¬ ((u.Data.length : Int) < 0) from by omega)]
    rw [show ((u.Data.length : Int)).toNat = u.Data.length from by simp]
    rw [readN_append rest rfl]

theorem chunkWF_weaken {c : Chunk} (h : chunkWF true c = true)
    (hs : isSentinelData c = false) : chunkWF false c = true := by
  obtain ⟨⟨t, sz⟩, cont⟩ := c
  cases cont <;>
    simp only [chunkWF, isSentinelData, Bool.and_eq_true, Bool.true_and,
      Bool.false_and, Bool.or_false, Bool.or_eq_true, decide_eq_true_eq,
      decide_eq_false_iff_not] at h hs ⊢ <;>
    tauto

theorem Chunk_Encode_length {c : Chunk} {b : Bytes}
    (h : Chunk.Encode c = .ok b) : 12 ≤ b.length := by
  unfold Chunk.Encode at h
  simp only [] at h
  repeat' split at h
  all_goals
    first
      | (injection h with h2; rw [← h2]; simp only [List.length_append,
          tagBytes_length, int64Bytes_length]; omega)
      | exact Except.noConfusion h

/-- The last chunk also round-trips, consuming the whole remaining stream
(this covers the `-1`-sentinel audio-data chunk, whose payload is
everything up to end of stream). -/
theorem Chunk_decode_encode_last {c : Chunk} (enc : Bytes)
    (h : chunkWF true c = true) (henc : Chunk.Encode c = .ok enc) :
    Chunk.decode enc = .ok (c, []) := by
  by_cases hsent : isSentinelData c = true
  · obtain ⟨⟨t, sz⟩, cont⟩ := c
    cases cont with
    | audioFormat a => simp [isSentinelData] at hsent
    | channelLayout a => simp [isSentinelData] at hsent
    | strings a => simp [isSentinelData] at hsent
    | packetTable a => simp [isSentinelData] at hsent
    | midi a => simp [isSentinelData] at hsent
    | unknown a => simp [isSentinelData] at hsent
    | data d =>
    simp only [isSentinelData, decide_eq_true_eq] at hsent
    simp only [chunkWF, int64OK, tagOK, Bool.and_eq_true, Bool.true_and,
      Bool.or_eq_true, decide_eq_true_eq] at h
    obtain ⟨⟨-, hszlo, hszhi⟩, ⟨⟨htag, hec⟩, hbytes⟩, -⟩ := h
    subst htag
    have hchunk : Chunk.Encode ⟨⟨ChunkTypeAudioData, sz⟩, .data d⟩ =
        .ok ((tagBytes ChunkTypeAudioData ++ int64Bytes sz) ++
          Data.encode d) := rfl
    rw [hchunk] at henc
    injection henc with h2
    subst h2
    unfold Chunk.decode
    rw [readN_append _ (chunkHeaderBytes_length _ sz)]
    simp only [parseChunkHeader_encode hszlo hszhi, if_true]
    rw [Data_decode_encode_sentinel hec hsent]
    rw [if_neg (show ¬ (ChunkTypeAudioData = ChunkTypeAudioDescription)
      from by decide)]
    rw [if_neg (show ¬ (ChunkTypeAudioData = ChunkTypeChannelLayout)
      from by decide)]
    rw [if_neg (show ¬ (ChunkTypeAudioData = ChunkTypeInformation)
      from by decide)]
  · have h2 := chunkWF_weaken h (by simpa using hsent)
    have h3 := Chunk_decode_encode_mid [] enc h2 henc
    simpa using h3

theorem decodeChunksF_nil (fuel : Nat) :
    decodeChunksF (fuel + 1) [] = .ok [] := by
  simp [decodeChunksF, Chunk.decode, readN]

theorem decodeChunksF_encode :
    ∀ (l : List Chunk) (bs : Bytes) (fuel : Nat),
      chunksWFb l = true → encodeChunks l = .ok bs → bs.length < fuel →
      decodeChunksF fuel bs = .ok l := by
  intro l
  induction l with
  | nil =>
    intro bs fuel _ henc hf
    injection henc with h2
    subst h2
    cases fuel with
    | zero => omega
    | succ f => exact decodeChunksF_nil f
  | cons c t ih =>
    intro bs fuel hwf henc hf
    unfold encodeChunks at henc
    rcases hbc : Chunk.Encode c with e | bc
    · rw [hbc] at henc; simp at henc
    rw [hbc] at henc
    rcases hbt : encodeChunks t with e | bt
    · rw [hbt] at henc; simp at henc
    rw [hbt] at henc
    simp only [] at henc
    injection henc with h2
    subst h2
    have hbc12 := Chunk_Encode_length hbc
    cases fuel with
    | zero => omega
    | succ f =>
      cases t with
      | nil =>
        have hwf1 : chunkWF true c = true := by
          simpa [chunksWFb] using hwf
        have hbt0 : bt = [] := by
          unfold encodeChunks at hbt
          injection hbt with h3
          exact h3.symm
        subst hbt0
        rw [List.append_nil]
        unfold decodeChunksF
        simp only [Chunk_decode_encode_last bc hwf1 hbc]
        have hf1 : 1 ≤ f := by
          simp only [List.append_nil] at hf
          omega
        cases f with
        | zero => omega
        | succ g => simp only [decodeChunksF_nil g]
      | cons c2 t2 =>
        have hwf1 : chunkWF false c = true ∧ chunksWFb (c2 :: t2) = true := by
          simpa [chunksWFb, Bool.and_eq_true] using hwf
        unfold decodeChunksF
        simp only [Chunk_decode_encode_mid bt bc hwf1.1 hbc]
        simp only [ih bt f hwf1.2 hbt
          (by simp only [List.length_append] at hf; omega)]

/-- Decoding inverts encoding on well-formed files. -/
theorem File_decode_encode {f : File} {B : Bytes} (hwf : fileWF f = true)
    (henc : File.Encode f = .ok B) : File.Decode B = .ok f := by
  obtain ⟨fh, chunks⟩ := f
  simp only [fileWF, Bool.and_eq_true, decide_eq_true_eq] at hwf
  obtain ⟨⟨hh, htag⟩, hcw⟩ := hwf
  unfold File.Encode at henc
  rcases hbt : encodeChunks chunks with e | cb
  · rw [hbt] at henc; simp at henc
  rw [hbt] at henc
  simp only [] at henc
  injection henc with h2
  subst h2
  unfold File.Decode
  rw [FileHeader_decode_encode cb hh htag]
  simp only []
  rw [decodeChunksF_encode chunks cb (cb.length + 1) hcw hbt (by omega)]

/-! ### Helpers for truncation and panic analysis -/

theorem readN_eq_take {n : Nat} {s : Bytes} (h : n ≤ s.length) :
    readN n s = .ok (s.take n, s.drop n) := by
  unfold readN
  rcases Nat.eq_zero_or_pos n with h0 | h0
  · subst h0; simp
  · have hne : ¬ n = 0 := by omega
    have hemp : ¬ (s.isEmpty = true) := by
      simp only [List.isEmpty_iff]
      intro hc
      subst hc
      simp at h
      omega
    rw [if_neg hne, if_neg hemp, if_neg (by omega)]

theorem readN_unexpected {n : Nat} {s : Bytes} (h0 : n ≠ 0) (hne : s ≠ [])
    (hlt : s.length < n) : readN n s = .error .unexpectedEOF := by
  unfold readN
  have hemp : ¬ (s.isEmpty = true) := by
    simp only [List.isEmpty_iff]
    exact hne
  rw [if_neg h0, if_neg hemp, if_pos hlt]

theorem drop_add (l : Bytes) (a b : Nat) :
    (l.drop a).drop b = l.drop (a + b) := by
  rw [List.drop_drop, Nat.add_comm]

theorem decodeIntLoop_drop :
    ∀ (s : Bytes) (res k v : Nat) (rest : Bytes),
      decodeIntLoop res k s = .ok (v, rest) → ∃ m, rest = s.drop m := by
  intro s
  induction s with
  | nil => intro res k v rest h; simp [decodeIntLoop] at h
  | cons b t ih =>
    intro res k v rest h
    unfold decodeIntLoop at h
    split at h
    · simp only [Except.ok.injEq, Prod.mk.injEq] at h
      exact ⟨1, by simp [← h.2]⟩
    · obtain ⟨m, hm⟩ := ih _ _ _ _ h
      exact ⟨m + 1, by simpa using hm⟩

theorem decodeIntLoop_no_panic :
    ∀ (s : Bytes) (res k : Nat),
      decodeIntLoop res k s ≠ .error .panicked := by
  intro s
  induction s with
  | nil => intro res k; simp [decodeIntLoop]
  | cons b t ih =>
    intro res k
    unfold decodeIntLoop
    split
    · simp
    · exact ih _ _

theorem readString_drop :
    ∀ (s str rest : Bytes), readString s = .ok (str, rest) →
      ∃ m, rest = s.drop m := by
  intro s
  induction s with
  | nil => intro str rest h; simp [readString] at h
  | cons b t ih =>
    intro str rest h
    unfold readString at h
    split at h
    · simp only [Except.ok.injEq, Prod.mk.injEq] at h
      exact ⟨1, by simp [← h.2]⟩
    · rcases hr : readString t with e | p
      · rw [hr] at h; simp at h
      · obtain ⟨bs, s1⟩ := p
        rw [hr] at h
        simp only [Except.ok.injEq, Prod.mk.injEq] at h
        obtain ⟨m, hm⟩ := ih bs s1 hr
        exact ⟨m + 1, by simp [← h.2, hm, drop_add, Nat.add_comm]⟩

theorem readString_no_panic :
    ∀ (s : Bytes), readString s ≠ .error .panicked := by
  intro s
  induction s with
  | nil => simp [readString]
  | cons b t ih =>
    unfold readString
    split
    · simp
    · rcases hr : readString t with e | p
      · have : e ≠ .panicked := by
          intro hc
          subst hc
          exact ih hr
        simpa using this
      · simp

theorem Information_decode_drop {s : Bytes} {i : Information} {rest : Bytes}
    (h : Information.decode s = .ok (i, rest)) : ∃ m, rest = s.drop m := by
  unfold Information.decode at h
  rcases h1 : readString s with e | p
  · rw [h1] at h; simp at h
  · obtain ⟨key, s1⟩ := p
    rw [h1] at h
    simp only [] at h
    rcases h2 : readString s1 with e | p2
    · rw [h2] at h; simp at h
    · obtain ⟨value, s2⟩ := p2
      rw [h2] at h
      simp only [Except.ok.injEq, Prod.mk.injEq] at h
      obtain ⟨m1, hm1⟩ := readString_drop s key s1 h1
      obtain ⟨m2, hm2⟩ := readString_drop s1 value s2 h2
      refine ⟨m1 + m2, ?_⟩
      rw [← h.2, hm2, hm1, drop_add]

theorem Information_decode_no_panic {s : Bytes} :
    Information.decode s ≠ .error .panicked := by
  unfold Information.decode
  rcases h1 : readString s with e | p
  · have : e ≠ .panicked := by
      intro hc; subst hc; exact readString_no_panic s h1
    simpa using this
  · obtain ⟨key, s1⟩ := p
    rcases h2 : readString s1 with e | p2
    · have he : e ≠ .panicked := by
        intro hc; subst hc; exact readString_no_panic s1 h2
      simp only [h2]
      simpa using he
    · obtain ⟨value, s2⟩ := p2
      simp [h2]

theorem decodeInformations_drop :
    ∀ (n : Nat) (s : Bytes) (l : List Information) (rest : Bytes),
      decodeInformations n s = .ok (l, rest) → ∃ m, rest = s.drop m := by
  intro n
  induction n with
  | zero =>
    intro s l rest h
    simp only [decodeInformations, Except.ok.injEq, Prod.mk.injEq] at h
    exact ⟨0, by simp [← h.2]⟩
  | succ n ih =>
    intro s l rest h
    unfold decodeInformations at h
    rcases h1 : Information.decode s with e | p
    · rw [h1] at h; simp at h
    · obtain ⟨i, s1⟩ := p
      rw [h1] at h
      simp only [] at h
      rcases h2 : decodeInformations n s1 with e | p2
      · rw [h2] at h; simp at h
      · obtain ⟨l2, s2⟩ := p2
        rw [h2] at h
        simp only [Except.ok.injEq, Prod.mk.injEq] at h
        obtain ⟨m1, hm1⟩ := Information_decode_drop h1
        obtain ⟨m2, hm2⟩ := ih s1 l2 s2 h2
        refine ⟨m1 + m2, ?_⟩
        rw [← h.2, hm2, hm1, drop_add]

theorem decodeInformations_no_panic :
    ∀ (n : Nat) (s : Bytes),
      decodeInformations n s ≠ .error .panicked := by
  intro n
  induction n with
  | zero => intro s; simp [decodeInformations]
  | succ n ih =>
    intro s
    unfold decodeInformations
    rcases h1 : Information.decode s with e | p
    · have : e ≠ .panicked := by
        intro hc; subst hc; exact Information_decode_no_panic h1
      simpa using this
    · obtain ⟨i, s1⟩ := p
      rcases h2 : decodeInformations n s1 with e | p2
      · have : e ≠ .panicked := by
          intro hc; subst hc; exact ih s1 h2
        simp only [h2]
        simpa using this
      · simp [h2]

theorem decodeChannelDescriptions_drop :
    ∀ (n : Nat) (s : Bytes) (l : List ChannelDescription) (rest : Bytes),
      decodeChannelDescriptions n s = .ok (l, rest) → ∃ m, rest = s.drop m := by
  intro n
  induction n with
  | zero =>
    intro s l rest h
    simp only [decodeChannelDescriptions, Except.ok.injEq,
      Prod.mk.injEq] at h
    exact ⟨0, by simp [← h.2]⟩
  | succ n ih =>
    intro s l rest h
    unfold decodeChannelDescriptions at h
    rcases h1 : readChannelDescription s with e | p
    · rw [h1] at h; simp at h
    · obtain ⟨d, s1⟩ := p
      rw [h1] at h
      simp only [] at h
      rcases h2 : decodeChannelDescriptions n s1 with e | p2
      · rw [h2] at h; simp at h
      · obtain ⟨l2, s2⟩ := p2
        rw [h2] at h
        simp only [Except.ok.injEq, Prod.mk.injEq] at h
        have hm1 : ∃ m, s1 = s.drop m := by
          unfold readChannelDescription at h1
          rcases h3 : readN 20 s with e | p3
          · rw [h3] at h1; simp at h1
          · obtain ⟨bs, s4⟩ := p3
            rw [h3] at h1
            simp only [Except.ok.injEq, Prod.mk.injEq] at h1
            obtain ⟨-, hdrop, -⟩ := readN_ok_drop h3
            exact ⟨20, by rw [← h1.2, hdrop]⟩
        obtain ⟨m1, hm1⟩ := hm1
        obtain ⟨m2, hm2⟩ := ih s1 l2 s2 h2
        refine ⟨m1 + m2, ?_⟩
        rw [← h.2, hm2, hm1, drop_add]

theorem readChannelDescription_no_panic {s : Bytes} :
    readChannelDescription s ≠ .error .panicked := by
  unfold readChannelDescription
  rcases h3 : readN 20 s with e | p
  · have : e ≠ .panicked := by
      intro hc; subst hc; exact readN_not_panicked h3
    simpa using this
  · obtain ⟨bs, s4⟩ := p
    simp

theorem decodeChannelDescriptions_no_panic :
    ∀ (n : Nat) (s : Bytes),
      decodeChannelDescriptions n s ≠ .error .panicked := by
  intro n
  induction n with
  | zero => intro s; simp [decodeChannelDescriptions]
  | succ n ih =>
    intro s
    unfold decodeChannelDescriptions
    rcases h1 : readChannelDescription s with e | p
    · have : e ≠ .panicked := by
        intro hc; subst hc; exact readChannelDescription_no_panic h1
      simpa using this
    · obtain ⟨d, s1⟩ := p
      rcases h2 : decodeChannelDescriptions n s1 with e | p2
      · have : e ≠ .panicked := by
          intro hc; subst hc; exact ih s1 h2
        simp only [h2]
        simpa using this
      · simp [h2]

theorem decodePacketEntries_drop :
    ∀ (n : Nat) (s : Bytes) (l : List Nat) (rest : Bytes),
      decodePacketEntries n s = .ok (l, rest) → ∃ m, rest = s.drop m := by
  intro n
  induction n with
  | zero =>
    intro s l rest h
    simp only [decodePacketEntries, Except.ok.injEq, Prod.mk.injEq] at h
    exact ⟨0, by simp [← h.2]⟩
  | succ n ih =>
    intro s l rest h
    unfold decodePacketEntries at h
    rcases h1 : decodeInt s with e | p
    · rw [h1] at h; simp at h
    · obtain ⟨v, s1⟩ := p
      rw [h1] at h
      simp only [] at h
      rcases h2 : decodePacketEntries n s1 with e | p2
      · rw [h2] at h; simp at h
      · obtain ⟨l2, s2⟩ := p2
        rw [h2] at h
        simp only [Except.ok.injEq, Prod.mk.injEq] at h
        obtain ⟨m1, hm1⟩ := decodeIntLoop_drop s 0 0 v s1 h1
        obtain ⟨m2, hm2⟩ := ih s1 l2 s2 h2
        refine ⟨m1 + m2, ?_⟩
        rw [← h.2, hm2, hm1, drop_add]

theorem decodePacketEntries_no_panic :
    ∀ (n : Nat) (s : Bytes),
      decodePacketEntries n s ≠ .error .panicked := by
  intro n
  induction n with
  | zero => intro s; simp [decodePacketEntries]
  | succ n ih =>
    intro s
    unfold decodePacketEntries
    rcases h1 : decodeInt s with e | p
    · have : e ≠ .panicked := by
        intro hc; subst hc; exact decodeIntLoop_no_panic s 0 0 h1
      simpa using this
    · obtain ⟨v, s1⟩ := p
      rcases h2 : decodePacketEntries n s1 with e | p2
      · have : e ≠ .panicked := by
          intro hc; subst hc; exact ih s1 h2
        simp only [h2]
        simpa using this
      · simp [h2]

theorem AudioFormat_decode_drop {s : Bytes} {a : AudioFormat} {rest : Bytes}
    (h : AudioFormat.decode s = .ok (a, rest)) : ∃ m, rest = s.drop m := by
  unfold AudioFormat.decode at h
  rcases h1 : readN 32 s with e | p
  · rw [h1] at h; simp at h
  · obtain ⟨bs, s1⟩ := p
    rw [h1] at h
    simp only [Except.ok.injEq, Prod.mk.injEq] at h
    obtain ⟨-, hdrop, -⟩ := readN_ok_drop h1
    exact ⟨32, by rw [← h.2, hdrop]⟩

theorem AudioFormat_decode_no_panic {s : Bytes} :
    AudioFormat.decode s ≠ .error .panicked := by
  unfold AudioFormat.decode
  rcases h1 : readN 32 s with e | p
  · have he : e ≠ .panicked := by
      intro hc; subst hc; exact readN_not_panicked h1
    simpa using he
  · obtain ⟨bs, s1⟩ := p
    simp

theorem ChannelLayout_decode_drop {s : Bytes} {c : ChannelLayout}
    {rest : Bytes} (h : ChannelLayout.decode s = .ok (c, rest)) :
    ∃ m, rest = s.drop m := by
  unfold ChannelLayout.decode at h
  rcases h1 : readN 4 s with e | p
  · rw [h1] at h; simp at h
  obtain ⟨b1, s1⟩ := p
  rw [h1] at h
  simp only [] at h
  rcases h2 : readN 4 s1 with e | p
  · rw [h2] at h; simp at h
  obtain ⟨b2, s2⟩ := p
  rw [h2] at h
  simp only [] at h
  rcases h3 : readN 4 s2 with e | p
  · rw [h3] at h; simp at h
  obtain ⟨b3, s3⟩ := p
  rw [h3] at h
  simp only [] at h
  rcases h4 : decodeChannelDescriptions (beVal b3) s3 with e | p
  · rw [h4] at h; simp at h
  obtain ⟨l, s4⟩ := p
  rw [h4] at h
  simp only [Except.ok.injEq, Prod.mk.injEq] at h
  obtain ⟨-, hd1, -⟩ := readN_ok_drop h1
  obtain ⟨-, hd2, -⟩ := readN_ok_drop h2
  obtain ⟨-, hd3, -⟩ := readN_ok_drop h3
  obtain ⟨m, hm⟩ := decodeChannelDescriptions_drop (beVal b3) s3 l s4 h4
  refine ⟨4 + (4 + (4 + m)), ?_⟩
  rw [← h.2, hm, hd3, hd2, hd1, drop_add, drop_add, drop_add]

theorem ChannelLayout_decode_no_panic {s : Bytes} :
    ChannelLayout.decode s ≠ .error .panicked := by
  unfold ChannelLayout.decode
  rcases h1 : readN 4 s with e | p
  · have he : e ≠ .panicked := by
      intro hc; subst hc; exact readN_not_panicked h1
    simpa using he
  obtain ⟨b1, s1⟩ := p
  rcases h2 : readN 4 s1 with e | p
  · have he : e ≠ .panicked := by
      intro hc; subst hc; exact readN_not_panicked h2
    simp only [h2]
    simpa using he
  obtain ⟨b2, s2⟩ := p
  simp only [h2]
  rcases h3 : readN 4 s2 with e | p
  · have he : e ≠ .panicked := by
      intro hc; subst hc; exact readN_not_panicked h3
    simp only [h3]
    simpa using he
  obtain ⟨b3, s3⟩ := p
  simp only [h3]
  rcases h4 : decodeChannelDescriptions (beVal b3) s3 with e | p
  · have he : e ≠ .panicked := by
      intro hc; subst hc
      exact decodeChannelDescriptions_no_panic (beVal b3) s3 h4
    simp only [h4]
    simpa using he
  obtain ⟨l, s4⟩ := p
  simp [h4]

theorem CAFStringsChunk_decode_drop {s : Bytes} {c : CAFStringsChunk}
    {rest : Bytes} (h : CAFStringsChunk.decode s = .ok (c, rest)) :
    ∃ m, rest = s.drop m := by
  unfold CAFStringsChunk.decode at h
  rcases h1 : readN 4 s with e | p
  · rw [h1] at h; simp at h
  obtain ⟨cnt, s1⟩ := p
  rw [h1] at h
  simp only [] at h
  rcases h2 : decodeInformations (beVal cnt) s1 with e | p
  · rw [h2] at h; simp at h
  obtain ⟨l, s2⟩ := p
  rw [h2] at h
  simp only [Except.ok.injEq, Prod.mk.injEq] at h
  obtain ⟨-, hd1, -⟩ := readN_ok_drop h1
  obtain ⟨m, hm⟩ := decodeInformations_drop (beVal cnt) s1 l s2 h2
  refine ⟨4 + m, ?_⟩
  rw [← h.2, hm, hd1, drop_add]

theorem CAFStringsChunk_decode_no_panic {s : Bytes} :
    CAFStringsChunk.decode s ≠ .error .panicked := by
  unfold CAFStringsChunk.decode
  rcases h1 : readN 4 s with e | p
  · have he : e ≠ .panicked := by
      intro hc; subst hc; exact readN_not_panicked h1
    simpa using he
  obtain ⟨cnt, s1⟩ := p
  rcases h2 : decodeInformations (beVal cnt) s1 with e | p
  · have he : e ≠ .panicked := by
      intro hc; subst hc
      exact decodeInformations_no_panic (beVal cnt) s1 h2
    simp only [h2]
    simpa using he
  obtain ⟨l, s2⟩ := p
  simp [h2]

theorem PacketTable_decode_drop {s : Bytes} {c : PacketTable}
    {rest : Bytes} (h : PacketTable.decode s = .ok (c, rest)) :
    ∃ m, rest = s.drop m := by
  unfold PacketTable.decode at h
  rcases h1 : readN 24 s with e | p
  · rw [h1] at h; simp at h
  obtain ⟨bs, s1⟩ := p
  rw [h1] at h
  simp only [] at h
  rcases h2 : decodePacketEntries
      (parsePacketTableHeader bs).NumberPackets.toNat s1 with e | p
  · rw [h2] at h; simp at h
  obtain ⟨l, s2⟩ := p
  rw [h2] at h
  simp only [Except.ok.injEq, Prod.mk.injEq] at h
  obtain ⟨-, hd1, -⟩ := readN_ok_drop h1
  obtain ⟨m, hm⟩ := decodePacketEntries_drop _ s1 l s2 h2
  refine ⟨24 + m, ?_⟩
  rw [← h.2, hm, hd1, drop_add]

theorem PacketTable_decode_no_panic {s : Bytes} :
    PacketTable.decode s ≠ .error .panicked := by
  unfold PacketTable.decode
  rcases h1 : readN 24 s with e | p
  · have he : e ≠ .panicked := by
      intro hc; subst hc; exact readN_not_panicked h1
    simpa using he
  obtain ⟨bs, s1⟩ := p
  rcases h2 : decodePacketEntries
      (parsePacketTableHeader bs).NumberPackets.toNat s1 with e | p
  · have he : e ≠ .panicked := by
      intro hc; subst hc
      exact decodePacketEntries_no_panic _ s1 h2
    simp only [h2]
    simpa using he
  obtain ⟨l, s2⟩ := p
  simp [h2]

theorem Data_decode_drop {hd : ChunkHeader} {s : Bytes} {d : Caf.Data}
    {rest : Bytes} (h : Data.decode hd s = .ok (d, rest)) :
    ∃ m, rest = s.drop m := by
  unfold Data.decode at h
  rcases h1 : readN 4 s with e | p
  · rw [h1] at h; simp at h
  obtain ⟨ec, s1⟩ := p
  rw [h1] at h
  simp only [] at h
  obtain ⟨-, hd1, -⟩ := readN_ok_drop h1
  split at h
  · simp only [Except.ok.injEq, Prod.mk.injEq] at h
    exact ⟨s.length, by rw [← h.2, List.drop_length]⟩
  · simp only [Except.ok.injEq, Prod.mk.injEq] at h
    refine ⟨4 + (hd.ChunkSize - 4).toNat, ?_⟩
    rw [← h.2, hd1, drop_add]

theorem Data_decode_no_panic {hd : ChunkHeader} {s : Bytes} :
    Data.decode hd s ≠ .error .panicked := by
  unfold Data.decode
  rcases h1 : readN 4 s with e | p
  · have he : e ≠ .panicked := by
      intro hc; subst hc; exact readN_not_panicked h1
    simpa using he
  obtain ⟨ec, s1⟩ := p
  simp only []
  split <;> simp

theorem FileHeader_decode_drop {s : Bytes} {fh : FileHeader} {s1 : Bytes}
    (h : FileHeader.Decode s = .ok (fh, s1)) : s1 = s.drop 8 := by
  unfold FileHeader.Decode at h
  rcases h1 : readN 8 s with e | p
  · rw [h1] at h; simp at h
  obtain ⟨bs, s2⟩ := p
  rw [h1] at h
  simp only [] at h
  obtain ⟨-, hdrop, -⟩ := readN_ok_drop h1
  split at h
  · simp at h
  · simp only [Except.ok.injEq, Prod.mk.injEq] at h
    rw [← h.2, hdrop]

theorem FileHeader_decode_no_panic {s : Bytes} :
    FileHeader.Decode s ≠ .error .panicked := by
  unfold FileHeader.Decode
  rcases h1 : readN 8 s with e | p
  · have he : e ≠ .panicked := by
      intro hc; subst hc; exact readN_not_panicked h1
    simpa using he
  obtain ⟨bs, s2⟩ := p
  simp only []
  split <;> simp

/-- The panic characterization of `Chunk.decode`: a panic can only come
from `make([]byte, size)` with a negative declared size in the `midi` or
unknown-tag branch. -/
theorem Chunk_decode_panicked {s : Bytes}
    (h : Chunk.decode s = .error .panicked) :
    12 ≤ s.length ∧ (parseChunkHeader (s.take 12)).ChunkSize < 0 ∧
      ((parseChunkHeader (s.take 12)).ChunkType = ChunkTypeMidi ∨
        ((parseChunkHeader (s.take 12)).ChunkType ≠ ChunkTypeAudioDescription ∧
         (parseChunkHeader (s.take 12)).ChunkType ≠ ChunkTypeChannelLayout ∧
         (parseChunkHeader (s.take 12)).ChunkType ≠ ChunkTypeInformation ∧
         (parseChunkHeader (s.take 12)).ChunkType ≠ ChunkTypeAudioData ∧
         (parseChunkHeader (s.take 12)).ChunkType ≠ ChunkTypePacketTable ∧
         (parseChunkHeader (s.take 12)).ChunkType ≠ ChunkTypeMidi)) := by
  unfold Chunk.decode at h
  rcases h1 : readN 12 s with e | p
  · rw [h1] at h
    injection h with h2
    exact absurd (h1.trans (by rw [h2])) readN_not_panicked
  obtain ⟨hd, s1⟩ := p
  rw [h1] at h
  simp only [] at h
  obtain ⟨htake, -, hlen⟩ := readN_ok_drop h1
  subst htake
  refine ⟨hlen, ?_⟩
  split at h
  · rcases h2 : AudioFormat.decode s1 with e | p
    · rw [h2] at h
      injection h with h3
      exact absurd (h2.trans (by rw [h3])) AudioFormat_decode_no_panic
    · obtain ⟨cc, s2⟩ := p; rw [h2] at h; simp at h
  split at h
  · rcases h2 : ChannelLayout.decode s1 with e | p
    · rw [h2] at h
      injection h with h3
      exact absurd (h2.trans (by rw [h3])) ChannelLayout_decode_no_panic
    · obtain ⟨cc, s2⟩ := p; rw [h2] at h; simp at h
  split at h
  · rcases h2 : CAFStringsChunk.decode s1 with e | p
    · rw [h2] at h
      injection h with h3
      exact absurd (h2.trans (by rw [h3])) CAFStringsChunk_decode_no_panic
    · obtain ⟨cc, s2⟩ := p; rw [h2] at h; simp at h
  split at h
  · rcases h2 : Data.decode (parseChunkHeader (s.take 12)) s1 with e | p
    · rw [h2] at h
      injection h with h3
      exact absurd (h2.trans (by rw [h3])) Data_decode_no_panic
    · obtain ⟨cc, s2⟩ := p; rw [h2] at h; simp at h
  split at h
  · rcases h2 : PacketTable.decode s1 with e | p
    · rw [h2] at h
      injection h with h3
      exact absurd (h2.trans (by rw [h3])) PacketTable_decode_no_panic
    · obtain ⟨cc, s2⟩ := p; rw [h2] at h; simp at h
  split at h
  · rename_i hmidi
    split at h
    · rename_i hneg
      exact ⟨hneg, Or.inl hmidi⟩
    · rcases h2 : readN (parseChunkHeader (s.take 12)).ChunkSize.toNat s1
        with e | p
      · rw [h2] at h
        injection h with h3
        exact absurd (h2.trans (by rw [h3])) readN_not_panicked
      · obtain ⟨ba, s2⟩ := p; rw [h2] at h; simp at h
  · rename_i hn1 hn2 hn3 hn4 hn5 hn6
    split at h
    · rename_i hneg
      exact ⟨hneg, Or.inr ⟨hn1, hn2, hn3, hn4, hn5, hn6⟩⟩
    · rcases h2 : readN (parseChunkHeader (s.take 12)).ChunkSize.toNat s1
        with e | p
      · rw [h2] at h
        injection h with h3
        exact absurd (h2.trans (by rw [h3])) readN_not_panicked
      · obtain ⟨ba, s2⟩ := p; rw [h2] at h; simp at h

theorem Chunk_decode_drop {s : Bytes} {c : Chunk} {s1 : Bytes}
    (h : Chunk.decode s = .ok (c, s1)) : ∃ m, s1 = s.drop m := by
  unfold Chunk.decode at h
  rcases h1 : readN 12 s with e | p
  · rw [h1] at h; simp at h
  obtain ⟨hd, s2⟩ := p
  rw [h1] at h
  simp only [] at h
  obtain ⟨-, hdrop, -⟩ := readN_ok_drop h1
  have step : ∀ {m : Nat}, s1 = s2.drop m → ∃ m2, s1 = s.drop m2 := by
    intro m hm
    exact ⟨12 + m, by rw [hm, hdrop, drop_add]⟩
  split at h
  · rcases h2 : AudioFormat.decode s2 with e | p
    · rw [h2] at h; simp at h
    · obtain ⟨cc, s3⟩ := p
      rw [h2] at h
      simp only [Except.ok.injEq, Prod.mk.injEq] at h
      obtain ⟨m, hm⟩ := AudioFormat_decode_drop h2
      exact step (h.2 ▸ hm)
  split at h
  · rcases h2 : ChannelLayout.decode s2 with e | p
    · rw [h2] at h; simp at h
    · obtain ⟨cc, s3⟩ := p
      rw [h2] at h
      simp only [Except.ok.injEq, Prod.mk.injEq] at h
      obtain ⟨m, hm⟩ := ChannelLayout_decode_drop h2
      exact step (h.2 ▸ hm)
  split at h
  · rcases h2 : CAFStringsChunk.decode s2 with e | p
    · rw [h2] at h; simp at h
    · obtain ⟨cc, s3⟩ := p
      rw [h2] at h
      simp only [Except.ok.injEq, Prod.mk.injEq] at h
      obtain ⟨m, hm⟩ := CAFStringsChunk_decode_drop h2
      exact step (h.2 ▸ hm)
  split at h
  · rcases h2 : Data.decode (parseChunkHeader hd) s2 with e | p
    · rw [h2] at h; simp at h
    · obtain ⟨cc, s3⟩ := p
      rw [h2] at h
      simp only [Except.ok.injEq, Prod.mk.injEq] at h
      obtain ⟨m, hm⟩ := Data_decode_drop h2
      exact step (h.2 ▸ hm)
  split at h
  · rcases h2 : PacketTable.decode s2 with e | p
    · rw [h2] at h; simp at h
    · obtain ⟨cc, s3⟩ := p
      rw [h2] at h
      simp only [Except.ok.injEq, Prod.mk.injEq] at h
      obtain ⟨m, hm⟩ := PacketTable_decode_drop h2
      exact step (h.2 ▸ hm)
  · split at h
    · split at h
      · simp at h
      · rcases h2 : readN (parseChunkHeader hd).ChunkSize.toNat s2 with e | p
        · rw [h2] at h; simp at h
        · obtain ⟨ba, s3⟩ := p
          rw [h2] at h
          simp only [Except.ok.injEq, Prod.mk.injEq] at h
          obtain ⟨-, hdrop2, -⟩ := readN_ok_drop h2
          exact step (h.2 ▸ hdrop2)
    · split at h
      · simp at h
      · rcases h2 : readN (parseChunkHeader hd).ChunkSize.toNat s2 with e | p
        · rw [h2] at h; simp at h
        · obtain ⟨ba, s3⟩ := p
          rw [h2] at h
          simp only [Except.ok.injEq, Prod.mk.injEq] at h
          obtain ⟨-, hdrop2, -⟩ := readN_ok_drop h2
          exact step (h.2 ▸ hdrop2)

theorem decodeChunksF_panicked :
    ∀ (fuel : Nat) (s : Bytes),
      decodeChunksF fuel s = .error .panicked →
      ∃ n, Chunk.decode (s.drop n) = .error .panicked := by
  intro fuel
  induction fuel with
  | zero => intro s h; simp [decodeChunksF] at h
  | succ f ih =>
    intro s h
    unfold decodeChunksF at h
    rcases hc : Chunk.decode s with e | p
    · rw [hc] at h
      cases e with
      | eof => simp at h
      | unexpectedEOF => simp at h
      | invalidHeader => simp at h
      | panicked => exact ⟨0, by simpa using hc⟩
    · obtain ⟨c, s1⟩ := p
      rw [hc] at h
      simp only [] at h
      rcases hrec : decodeChunksF f s1 with e2 | l
      · rw [hrec] at h
        injection h with h2
        subst h2
        obtain ⟨m, hm⟩ := ih s1 hrec
        obtain ⟨k, hk⟩ := Chunk_decode_drop hc
        exact ⟨k + m, by rw [← drop_add, ← hk]; exact hm⟩
      · rw [hrec] at h; simp at h

/-! ### Claim theorems -/

/-- C1: for any valid CAF byte sequence `B` — one producible by encoding a
well-formed in-memory `File` (`ValidCAF`) — `File.Decode` succeeds on `B`
and `File.Encode` of the decoded result reproduces `B` byte-for-byte
(equality of the byte lists gives equal length and equal bytes at every
offset). -/
theorem C1_round_trip_identity (B : Bytes) (h : ValidCAF B) :
    ∃ f : File, File.Decode B = .ok f ∧ File.Encode f = .ok B := by
  obtain ⟨f, hwf, henc⟩ := h
  exact ⟨f, File_decode_encode hwf henc, henc⟩

/-- Witness for C1 on a concrete file: a "caff" header followed by one
sized audio-data chunk. -/
theorem C1_round_trip_identity_witness :
    ValidCAF [99, 97, 102, 102, 0, 0, 0, 0, 100, 97, 116, 97,
      0, 0, 0, 0, 0, 0, 0, 6, 0, 0, 0, 0, 7, 8] ∧
    ∃ f : File,
      File.Decode [99, 97, 102, 102, 0, 0, 0, 0, 100, 97, 116, 97,
        0, 0, 0, 0, 0, 0, 0, 6, 0, 0, 0, 0, 7, 8] = .ok f ∧
      File.Encode f = .ok [99, 97, 102, 102, 0, 0, 0, 0, 100, 97, 116, 97,
        0, 0, 0, 0, 0, 0, 0, 6, 0, 0, 0, 0, 7, 8] := by
  have hv : ValidCAF [99, 97, 102, 102, 0, 0, 0, 0, 100, 97, 116, 97,
      0, 0, 0, 0, 0, 0, 0, 6, 0, 0, 0, 0, 7, 8] :=
    ⟨⟨⟨⟨99, 97, 102, 102⟩, 0, 0⟩,
      [⟨⟨⟨100, 97, 116, 97⟩, 6⟩, .data ⟨0, [7, 8]⟩⟩]⟩, by decide, by rfl⟩
  exact ⟨hv, C1_round_trip_identity _ hv⟩

/-- C2: for every `v < 2^56`, `decodeInt` applied to `encodeInt v` (with
any trailing stream) returns `v` and consumes exactly the encoded bytes;
and `encodeInt 0` is the single zero byte. -/
theorem C2_varint_round_trip (v : Nat) (rest : Bytes) (h : v < 2 ^ 56) :
    decodeInt (encodeInt v ++ rest) = .ok (v, rest) ∧ encodeInt 0 = [0] :=
  ⟨decodeInt_encodeInt v rest h, rfl⟩

theorem C2_varint_round_trip_witness :
    (300 : Nat) < 2 ^ 56 ∧
    (decodeInt (encodeInt 300 ++ [9]) = .ok (300, [9]) ∧
      encodeInt 0 = [0]) :=
  ⟨by norm_num, C2_varint_round_trip 300 [9] (by norm_num)⟩

/-- C3: a successful `decodeInt` consumed some `n` bytes with `1 ≤ n ≤ 8`,
its value is the fold `res = (res<<7 | (b & 0x7F)) mod 2^64` over exactly
those `n` bytes, every consumed byte before the last has the continuation
bit set, the last consumed byte has it clear unless the 8-byte cap stopped
the loop, and the returned value is below `2^56`. -/
theorem C3_decodeInt_cap (s : Bytes) (v : Nat) (rest : Bytes)
    (h : decodeInt s = .ok (v, rest)) :
    v < 2 ^ 56 ∧
    ∃ n, 1 ≤ n ∧ n ≤ 8 ∧ rest = s.drop n ∧
      v = (s.take n).foldl (fun a b => (a * 128 + (b &&& 127)) % 2 ^ 64) 0 ∧
      (∀ j, j + 1 < n → ∃ b, s.get? j = some b ∧ b &&& 128 ≠ 0) ∧
      (n < 8 → ∃ b, s.get? (n - 1) = some b ∧ b &&& 128 = 0) := by
  obtain ⟨n, h1, h2, h3, h4, h5, h6, h7⟩ :=
    decodeIntLoop_spec s 0 0 v rest (by norm_num) (by norm_num) h
  have hb : v < 2 ^ 56 :=
    lt_of_lt_of_le h7 (Nat.pow_le_pow_right (by norm_num) (by omega))
  exact ⟨hb, n, h1, by omega, h3, h4, h5, fun hlt => h6 (by omega)⟩

theorem C3_decodeInt_cap_witness :
    decodeInt [5] = .ok (5, []) ∧
    (5 < 2 ^ 56 ∧
    ∃ n, 1 ≤ n ∧ n ≤ 8 ∧ ([] : Bytes) = ([5] : Bytes).drop n ∧
      5 = (([5] : Bytes).take n).foldl
        (fun a b => (a * 128 + (b &&& 127)) % 2 ^ 64) 0 ∧
      (∀ j, j + 1 < n → ∃ b, ([5] : Bytes).get? j = some b ∧ b &&& 128 ≠ 0) ∧
      (n < 8 → ∃ b, ([5] : Bytes).get? (n - 1) = some b ∧ b &&& 128 = 0)) :=
  ⟨rfl, C3_decodeInt_cap [5] 5 [] rfl⟩

/-- C4 (counterexample): the stream holds a "caff" header and a packet
table declaring 3 packets, but ends after a single decodable varint.  The
claim says `File.Decode` must fail with a truncation error; in fact the
`io.EOF` from the second varint read is taken by the chunk loop as a clean
end of the chunk sequence, and decode returns a successful `File` with the
truncated chunk silently dropped. -/
theorem C4_truncation_counterexample :
    File.Decode [99, 97, 102, 102, 0, 0, 0, 0, 112, 97, 107, 116,
      0, 0, 0, 0, 0, 0, 0, 27, 0, 0, 0, 0, 0, 0, 0, 3,
      0, 0, 0, 0, 0, 0, 0, 0, 0, 0, 0, 0, 0, 0, 0, 0, 5] =
      .ok ⟨⟨⟨99, 97, 102, 102⟩, 0, 0⟩, []⟩ := rfl

/-- C4 (amended): truncation strictly inside the fixed 12-byte chunk
header does fail with the unexpected-EOF truncation error; but when the
stream is exhausted exactly at a sub-read boundary inside a chunk payload
(e.g. between the varints of a packet table declaring 3 packets), the
resulting `io.EOF` makes `File.Decode` stop and return success with the
truncated chunk dropped; and a data chunk with declared size `S` whose
stream holds fewer than `S-4` payload bytes decodes successfully with a
short payload. -/
theorem C4_truncation_amended :
    (∀ s : Bytes, s ≠ [] → s.length < 12 →
      Chunk.decode s = .error .unexpectedEOF) ∧
    File.Decode [99, 97, 102, 102, 0, 0, 0, 0, 112, 97, 107, 116,
      0, 0, 0, 0, 0, 0, 0, 27, 0, 0, 0, 0, 0, 0, 0, 3,
      0, 0, 0, 0, 0, 0, 0, 0, 0, 0, 0, 0, 0, 0, 0, 0, 5] =
      .ok ⟨⟨⟨99, 97, 102, 102⟩, 0, 0⟩, []⟩ ∧
    File.Decode [99, 97, 102, 102, 0, 0, 0, 0, 100, 97, 116, 97,
      0, 0, 0, 0, 0, 0, 0, 10, 0, 0, 0, 0, 1, 2] =
      .ok ⟨⟨⟨99, 97, 102, 102⟩, 0, 0⟩,
        [⟨⟨⟨100, 97, 116, 97⟩, 10⟩, .data ⟨0, [1, 2]⟩⟩]⟩ := by
  refine ⟨?_, rfl, rfl⟩
  intro s hne hlen
  have hr : readN 12 s = .error .unexpectedEOF :=
    readN_unexpected (by norm_num) hne hlen
  unfold Chunk.decode
  rw [hr]

theorem C4_truncation_amended_witness :
    Chunk.decode [1] = .error .unexpectedEOF :=
  C4_truncation_amended.1 [1] (by decide) (by decide)

/-- C5 (counterexample): `readString` on the bytes `[65, 0]` stores the
zero terminator: the logical string is `[65, 0]`, not the terminator-free
`[65]` the claim describes; and `writeString` appends nothing — encoding
the claimed stored value `[65]` yields `[65]`, not `[65, 0]`. -/
theorem C5_terminator_counterexample :
    readString [65, 0] = .ok ([65, 0], []) ∧
    ([65, 0] : Bytes) ≠ [65] ∧ writeString [65] = [65] :=
  ⟨rfl, by decide, rfl⟩

/-- C5 (amended): each string is read up to AND including its zero
terminator, and the terminator byte IS stored in the logical string value;
on encode, `writeString` emits exactly the stored bytes and appends
nothing — which still reproduces the original stream bytes. -/
theorem C5_terminator_amended (s str rest : Bytes)
    (h : readString s = .ok (str, rest)) :
    str ≠ [] ∧ str.getLast? = some 0 ∧ (∀ b ∈ str.dropLast, b ≠ 0) ∧
      writeString str = str ∧ writeString str ++ rest = s := by
  induction s generalizing str rest with
  | nil => simp [readString] at h
  | cons b t ih =>
    unfold readString at h
    by_cases hb : b = 0
    · rw [if_pos hb] at h
      simp only [Except.ok.injEq, Prod.mk.injEq] at h
      obtain ⟨hstr, hrest⟩ := h
      subst hb
      rw [← hstr, ← hrest]
      refine ⟨by simp, by simp, by simp, rfl, rfl⟩
    · rw [if_neg hb] at h
      rcases hr : readString t with e | p
      · rw [hr] at h; simp at h
      · obtain ⟨bs, s1⟩ := p
        rw [hr] at h
        simp only [Except.ok.injEq, Prod.mk.injEq] at h
        obtain ⟨hstr, hrest⟩ := h
        obtain ⟨hne, hlast, hmid, -, happ⟩ := ih bs s1 hr
        subst hrest
        rw [← hstr]
        refine ⟨by simp, ?_, ?_, rfl, ?_⟩
        · cases bs with
          | nil => exact absurd rfl hne
          | cons x xs => rw [List.getLast?_cons_cons]; exact hlast
        · intro y hy
          cases bs with
          | nil => exact absurd rfl hne
          | cons x xs =>
            rw [List.dropLast_cons₂] at hy
            rcases List.mem_cons.mp hy with hyb | hym
            · subst hyb; exact hb
            · exact hmid y hym
        · unfold writeString at happ ⊢
          rw [List.cons_append, happ]

theorem C5_terminator_amended_witness :
    ([66, 0] : Bytes) ≠ [] ∧ ([66, 0] : Bytes).getLast? = some 0 ∧
    (∀ b ∈ ([66, 0] : Bytes).dropLast, b ≠ 0) ∧
    writeString [66, 0] = [66, 0] ∧ writeString [66, 0] ++ [7] = [66, 0, 7] :=
  C5_terminator_amended [66, 0, 7] [66, 0] [7] rfl

/-- C6 (counterexample): a data chunk with declared size 10 whose stream
holds only 2 payload bytes after the edit count consumes just those 2
bytes — not the claimed `S - 4 = 6` — and still succeeds. -/
theorem C6_data_sizing_counterexample :
    Data.decode ⟨⟨100, 97, 116, 97⟩, 10⟩ [0, 0, 0, 0, 1, 2] =
      .ok (⟨0, [1, 2]⟩, []) ∧ ([1, 2] : Bytes).length ≠ 10 - 4 :=
  ⟨rfl, by decide⟩

/-- C6 (amended): after the 4-byte edit count, a declared size of `-1`
consumes every remaining byte; any other declared size `S` consumes
exactly `min(S-4, remaining)` bytes (so exactly `S-4` whenever the stream
holds at least that many), never failing. -/
theorem C6_data_sizing_amended (h : ChunkHeader) (s : Bytes)
    (hlen : 4 ≤ s.length) :
    (h.ChunkSize = -1 →
      Data.decode h s = .ok (⟨beVal (s.take 4), s.drop 4⟩, [])) ∧
    (h.ChunkSize ≠ -1 →
      Data.decode h s = .ok (⟨beVal (s.take 4),
        (s.drop 4).take (h.ChunkSize - 4).toNat⟩,
        (s.drop 4).drop (h.ChunkSize - 4).toNat)) := by
  constructor
  · intro hs
    unfold Data.decode
    rw [readN_eq_take hlen]
    simp only []
    rw [if_pos hs]
  · intro hs
    unfold Data.decode
    rw [readN_eq_take hlen]
    simp only []
    rw [if_neg hs]

theorem C6_data_sizing_amended_witness :
    Data.decode ⟨⟨100, 97, 116, 97⟩, -1⟩ [0, 0, 0, 0, 9] =
      .ok (⟨beVal (([0, 0, 0, 0, 9] : Bytes).take 4),
        ([0, 0, 0, 0, 9] : Bytes).drop 4⟩, []) :=
  (C6_data_sizing_amended ⟨⟨100, 97, 116, 97⟩, -1⟩ [0, 0, 0, 0, 9]
    (by decide)).1 rfl

/-- C7 (counterexample): the 4-byte stream "xxxx" has first 4 bytes that
are not "caff", yet `File.Decode` fails with the unexpected-EOF truncation
error, not the malformed-header error: the 8-byte header is read in full
before the magic is compared. -/
theorem C7_magic_counterexample :
    File.Decode [120, 120, 120, 120] = .error .unexpectedEOF ∧
      Err.unexpectedEOF ≠ Err.invalidHeader :=
  ⟨rfl, by decide⟩

/-- C7 (amended): every stream of at least 8 bytes whose first 4 bytes are
not "caff" fails with the malformed-header error, regardless of the
remaining content; but a nonempty stream shorter than the 8-byte file
header fails with the unexpected-EOF truncation error instead (and the
empty stream with EOF), because the whole header is read before the magic
tag is checked. -/
theorem C7_magic_rejection_amended (s : Bytes) :
    (8 ≤ s.length → s.take 4 ≠ [99, 97, 102, 102] →
      File.Decode s = .error .invalidHeader) ∧
    (s ≠ [] → s.length < 8 → File.Decode s = .error .unexpectedEOF) ∧
    (s = [] → File.Decode s = .error .eof) := by
  refine ⟨?_, ?_, ?_⟩
  · intro hlen htake
    obtain ⟨a, s1, rfl⟩ : ∃ a s1, s = a :: s1 := by
      cases s with
      | nil => simp at hlen
      | cons a s1 => exact ⟨a, s1, rfl⟩
    obtain ⟨b, s2, rfl⟩ : ∃ b s2, s1 = b :: s2 := by
      cases s1 with
      | nil => simp only [List.length_cons, List.length_nil] at hlen; omega
      | cons b s2 => exact ⟨b, s2, rfl⟩
    obtain ⟨c, s3, rfl⟩ : ∃ c s3, s2 = c :: s3 := by
      cases s2 with
      | nil => simp only [List.length_cons, List.length_nil] at hlen; omega
      | cons c s3 => exact ⟨c, s3, rfl⟩
    obtain ⟨d, t, rfl⟩ : ∃ d t, s3 = d :: t := by
      cases s3 with
      | nil => simp only [List.length_cons, List.length_nil] at hlen; omega
      | cons d t => exact ⟨d, t, rfl⟩
    unfold File.Decode FileHeader.Decode
    rw [readN_eq_take (by simpa using hlen)]
    simp only [List.take_succ_cons, List.getD_cons_zero, List.getD_cons_succ]
    rw [if_pos (show FourByteString.mk a b c d ≠
        stringToChunkType [99, 97, 102, 102] from by
      intro hc
      apply htake
      injection hc with e0 e1 e2 e3
      subst e0
      subst e1
      subst e2
      subst e3
      rfl)]
  · intro hne hlen
    have hr : readN 8 s = .error .unexpectedEOF :=
      readN_unexpected (by norm_num) hne hlen
    unfold File.Decode FileHeader.Decode
    rw [hr]
  · intro hemp
    subst hemp
    rfl

theorem C7_magic_rejection_amended_witness :
    File.Decode [0, 0, 0, 0, 0, 0, 0, 0] = .error .invalidHeader :=
  (C7_magic_rejection_amended [0, 0, 0, 0, 0, 0, 0, 0]).1 (by decide)
    (by decide)

/-- C8: a chunk whose tag is none of the six known tags and whose declared
size is `N ≥ 0` (within int64 range) decodes to an opaque blob of exactly
the next `N` stream bytes, and re-encoding that chunk writes the identical
12-byte header followed by the identical `N` payload bytes. -/
theorem C8_unknown_tag_preservation (t : FourByteString) (N : Nat)
    (body : Bytes)
    (h1 : t ≠ ChunkTypeAudioDescription) (h2 : t ≠ ChunkTypeChannelLayout)
    (h3 : t ≠ ChunkTypeInformation) (h4 : t ≠ ChunkTypeAudioData)
    (h5 : t ≠ ChunkTypePacketTable) (h6 : t ≠ ChunkTypeMidi)
    (hN : N < 2 ^ 63) (hlen : N ≤ body.length) :
    Chunk.decode (tagBytes t ++ beBytes 8 N ++ body) =
      .ok (⟨⟨t, (N : Int)⟩, .unknown ⟨body.take N⟩⟩, body.drop N) ∧
    (body.take N).length = N ∧
    Chunk.Encode ⟨⟨t, (N : Int)⟩, .unknown ⟨body.take N⟩⟩ =
      .ok (tagBytes t ++ beBytes 8 N ++ body.take N) := by
  have hsz : int64Bytes (N : Int) = beBytes 8 N := int64Bytes_ofNat hN
  refine ⟨?_, by rw [List.length_take]; omega, ?_⟩
  · have hb : (tagBytes t ++ int64Bytes (N : Int)) ++ body =
        tagBytes t ++ beBytes 8 N ++ body := by
      rw [hsz, List.append_assoc]
    rw [← hb]
    unfold Chunk.decode
    rw [readN_append _ (chunkHeaderBytes_length t _)]
    simp only [@parseChunkHeader_encode t (N : Int) (by omega) (by omega)]
    rw [if_neg h1, if_neg h2, if_neg h3, if_neg h4, if_neg h5, if_neg h6]
    rw [if_neg (show ¬ ((N : Int) < 0) from by omega)]
    rw [show ((N : Int)).toNat = N from by simp]
    rw [readN_eq_take hlen]
  · have henc : Chunk.Encode ⟨⟨t, (N : Int)⟩, .unknown ⟨body.take N⟩⟩ =
        .ok ((tagBytes t ++ int64Bytes (N : Int)) ++ body.take N) := by
      unfold Chunk.Encode
      simp only []
      rw [if_neg h1, if_neg h2, if_neg h3, if_neg h4, if_neg h5, if_neg h6]
    rw [henc, hsz, List.append_assoc]

theorem C8_unknown_tag_preservation_witness :
    Chunk.decode (tagBytes ⟨122, 122, 122, 122⟩ ++ beBytes 8 3 ++
        [1, 2, 3, 4]) =
      .ok (⟨⟨⟨122, 122, 122, 122⟩, (3 : Int)⟩,
        .unknown ⟨([1, 2, 3, 4] : Bytes).take 3⟩⟩,
        ([1, 2, 3, 4] : Bytes).drop 3) ∧
    (([1, 2, 3, 4] : Bytes).take 3).length = 3 ∧
    Chunk.Encode ⟨⟨⟨122, 122, 122, 122⟩, (3 : Int)⟩,
        .unknown ⟨([1, 2, 3, 4] : Bytes).take 3⟩⟩ =
      .ok (tagBytes ⟨122, 122, 122, 122⟩ ++ beBytes 8 3 ++
        ([1, 2, 3, 4] : Bytes).take 3) :=
  C8_unknown_tag_preservation ⟨122, 122, 122, 122⟩ 3 [1, 2, 3, 4]
    (by decide) (by decide) (by decide) (by decide) (by decide) (by decide)
    (by norm_num) (by norm_num)

/-- C9 (counterexample): a "caff" header followed by a midi chunk whose
declared size is -1 makes `Chunk.decode` run Go's `make([]byte, -1)`, a
runtime panic (crash) modelled as `Err.panicked` — decode does not return
one of the ordinary error values. -/
theorem C9_crash_counterexample :
    File.Decode midiNegStream = .error .panicked ∧
    Err.panicked ≠ Err.eof ∧ Err.panicked ≠ Err.unexpectedEOF ∧
    Err.panicked ≠ Err.invalidHeader :=
  ⟨rfl, by decide, by decide, by decide⟩

/-- C9 (amended): decode always terminates with a value, and the only way
it crashes (panics) instead of returning an ordinary error is a midi or
unknown-tag chunk whose 12-byte header declares a negative size, where
`make([]byte, size)` panics: every panic of `File.Decode` exhibits such a
chunk header at some position `s.drop n` of the input. -/
theorem C9_decode_no_crash_amended (s : Bytes)
    (h : File.Decode s = .error .panicked) :
    ∃ n, 12 ≤ (s.drop n).length ∧
      (parseChunkHeader ((s.drop n).take 12)).ChunkSize < 0 ∧
      ((parseChunkHeader ((s.drop n).take 12)).ChunkType = ChunkTypeMidi ∨
        ((parseChunkHeader ((s.drop n).take 12)).ChunkType ≠
            ChunkTypeAudioDescription ∧
         (parseChunkHeader ((s.drop n).take 12)).ChunkType ≠
            ChunkTypeChannelLayout ∧
         (parseChunkHeader ((s.drop n).take 12)).ChunkType ≠
            ChunkTypeInformation ∧
         (parseChunkHeader ((s.drop n).take 12)).ChunkType ≠
            ChunkTypeAudioData ∧
         (parseChunkHeader ((s.drop n).take 12)).ChunkType ≠
            ChunkTypePacketTable ∧
         (parseChunkHeader ((s.drop n).take 12)).ChunkType ≠
            ChunkTypeMidi)) := by
  unfold File.Decode at h
  rcases hf : FileHeader.Decode s with e | p
  · rw [hf] at h
    injection h with h2
    exact absurd (hf.trans (by rw [h2])) FileHeader_decode_no_panic
  obtain ⟨fh, s1⟩ := p
  rw [hf] at h
  simp only [] at h
  rcases hd : decodeChunksF (s1.length + 1) s1 with e2 | l
  · rw [hd] at h
    injection h with h2
    subst h2
    obtain ⟨n, hn⟩ := decodeChunksF_panicked _ _ hd
    have hs1 : s1 = s.drop 8 := FileHeader_decode_drop hf
    subst hs1
    rw [drop_add] at hn
    obtain ⟨h12, hsz, htag⟩ := Chunk_decode_panicked hn
    exact ⟨8 + n, h12, hsz, htag⟩
  · rw [hd] at h; simp at h

theorem C9_decode_no_crash_amended_witness :
    ∃ n, 12 ≤ (midiNegStream.drop n).length ∧
      (parseChunkHeader ((midiNegStream.drop n).take 12)).ChunkSize < 0 ∧
      ((parseChunkHeader ((midiNegStream.drop n).take 12)).ChunkType =
          ChunkTypeMidi ∨
        ((parseChunkHeader ((midiNegStream.drop n).take 12)).ChunkType ≠
            ChunkTypeAudioDescription ∧
         (parseChunkHeader ((midiNegStream.drop n).take 12)).ChunkType ≠
            ChunkTypeChannelLayout ∧
         (parseChunkHeader ((midiNegStream.drop n).take 12)).ChunkType ≠
            ChunkTypeInformation ∧
         (parseChunkHeader ((midiNegStream.drop n).take 12)).ChunkType ≠
            ChunkTypeAudioData ∧
         (parseChunkHeader ((midiNegStream.drop n).take 12)).ChunkType ≠
            ChunkTypePacketTable ∧
         (parseChunkHeader ((midiNegStream.drop n).take 12)).ChunkType ≠
            ChunkTypeMidi)) :=
  C9_decode_no_crash_amended midiNegStream (by rfl)

/-- C10: `FileHeader.Encode` performs no validation: it writes the 4 tag
bytes, then the 16-bit version and flags patterns big-endian, always
producing its 8 bytes even when `FileType` is not "caff" — and then
`FileHeader.Decode` rejects the produced stream (with anything appended)
with the malformed-header error. -/
theorem C10_fileheader_encode_no_validation (h : FileHeader) (rest : Bytes)
    (hne : h.FileType ≠ stringToChunkType [99, 97, 102, 102]) :
    FileHeader.Encode h =
      tagBytes h.FileType ++ beBytes 2 h.FileVersion ++
        beBytes 2 h.FileFlags ∧
    (FileHeader.Encode h).length = 8 ∧
    FileHeader.Decode (FileHeader.Encode h ++ rest) =
      .error .invalidHeader := by
  refine ⟨rfl, FileHeader_encode_length h, ?_⟩
  unfold FileHeader.Decode
  rw [readN_append rest (FileHeader_encode_length h)]
  simp only []
  unfold FileHeader.Encode
  simp only [tagBytes, List.cons_append, List.nil_append, List.getD_cons_zero,
    List.getD_cons_succ]
  rw [if_pos (show FourByteString.mk h.FileType.b0 h.FileType.b1
      h.FileType.b2 h.FileType.b3 ≠ stringToChunkType [99, 97, 102, 102]
      from by
    intro hc
    apply hne
    rw [← hc])]

theorem C10_fileheader_encode_no_validation_witness :
    FileHeader.Encode ⟨⟨0, 0, 0, 0⟩, 1, 2⟩ =
      tagBytes ⟨0, 0, 0, 0⟩ ++ beBytes 2 1 ++ beBytes 2 2 ∧
    (FileHeader.Encode ⟨⟨0, 0, 0, 0⟩, 1, 2⟩).length = 8 ∧
    FileHeader.Decode (FileHeader.Encode ⟨⟨0, 0, 0, 0⟩, 1, 2⟩ ++ [5]) =
      .error .invalidHeader :=
  C10_fileheader_encode_no_validation ⟨⟨0, 0, 0, 0⟩, 1, 2⟩ [5] (by decide)

end Caf
